import Mathlib

/-!
# PersistentRBTree (src/fprog_besser.cpp)

The C++ class keeps its nodes behind `std::shared_ptr`, copies a node with
`std::make_shared<Node<T>>(*node)` and afterwards writes fields of nodes through
pointers.  The embedding therefore has two layers.

* The store layer follows the source statement by statement.  A `Heap` is the list
  of all nodes allocated so far, a pointer is `Option Nat` (`none` is `nullptr`,
  `some a` is the node at index `a`), `make_shared` appends a node, and a write through
  a pointer replaces the node at that index.  Every function returns `none` when the
  C++ would dereference a null pointer.
* The value layer (`VTree`) is the tree that a pointer denotes in a given heap.  The
  functions on `VTree` compute what the store-layer functions build; the connection
  between the layers is proved (`insert_spec`, `add_spec`), not assumed.

`tokenize` is embedded in the namespace `Tokenizer`, on texts as lists of bytes, with
the character classes of the C library in the "C" locale.
-/

namespace PersistentRBTree

/-! ## Store layer -/

/-- Source `struct Node`: a key, three pointers and the colour bit. -/
structure Node (α : Type) where
  data : α
  left : Option Nat
  right : Option Nat
  parent : Option Nat
  isRed : Bool
deriving DecidableEq

/-- All nodes allocated so far; the address of a node is its index. -/
abbrev Heap (α : Type) := List (Node α)

variable {α : Type}

/-- Constructor `Node(T value)`: no children, no parent, RED. -/
def Node.mk1 (value : α) : Node α :=
  { data := value, left := none, right := none, parent := none, isRed := true }

/-- Source `std::make_shared<Node<T>>(n)`: the node is stored at the next free address. -/
def alloc (h : Heap α) (n : Node α) : Heap α × Option Nat :=
  (h ++ [n], some h.length)

/-- Source `*p`: reading through a pointer; `none` for `nullptr`. -/
def deref (h : Heap α) (p : Option Nat) : Option (Node α) :=
  match p with
  | none => none
  | some a => h[a]?

/-- Source `p->left = v`. -/
def setLeft (h : Heap α) (p v : Option Nat) : Option (Heap α) :=
  match p, deref h p with
  | some a, some n => some (h.set a { n with left := v })
  | _, _ => none

/-- Source `p->right = v`. -/
def setRight (h : Heap α) (p v : Option Nat) : Option (Heap α) :=
  match p, deref h p with
  | some a, some n => some (h.set a { n with right := v })
  | _, _ => none

/-- Source `p->parent = v`. -/
def setParent (h : Heap α) (p v : Option Nat) : Option (Heap α) :=
  match p, deref h p with
  | some a, some n => some (h.set a { n with parent := v })
  | _, _ => none

/-- Source `p->isRed = c`. -/
def setIsRed (h : Heap α) (p : Option Nat) (c : Bool) : Option (Heap α) :=
  match p, deref h p with
  | some a, some n => some (h.set a { n with isRed := c })
  | _, _ => none

/-- Source `isRed(node)`: `node != nullptr && node->isRed`. -/
def isRed (h : Heap α) (p : Option Nat) : Bool :=
  match deref h p with
  | none => false
  | some n => n.isRed

/-- Source `rotateLeft(node)`, statement by statement. -/
def rotateLeft (h : Heap α) (node : Option Nat) : Option (Heap α × Option Nat) := do
  let n ← deref h node
  let r ← deref h n.right
  let (h, newNode) := alloc h r
  let n ← deref h node
  let (h, newParent) := alloc h n
  let nn ← deref h newNode
  let h ← setRight h newParent nn.left
  let nn ← deref h newNode
  let h ← (if nn.left.isSome then setParent h nn.left newParent else some h)
  let h ← setLeft h newNode newParent
  let h ← setParent h newParent newNode
  let n ← deref h node
  let h ← setParent h newNode n.parent
  let n ← deref h node
  let h ← setIsRed h newNode n.isRed
  let h ← setIsRed h newParent true
  some (h, newNode)

/-- Source `rotateRight(node)`, statement by statement. -/
def rotateRight (h : Heap α) (node : Option Nat) : Option (Heap α × Option Nat) := do
  let n ← deref h node
  let l ← deref h n.left
  let (h, newNode) := alloc h l
  let n ← deref h node
  let (h, newParent) := alloc h n
  let nn ← deref h newNode
  let h ← setLeft h newParent nn.right
  let nn ← deref h newNode
  let h ← (if nn.right.isSome then setParent h nn.right newParent else some h)
  let h ← setRight h newNode newParent
  let h ← setParent h newParent newNode
  let n ← deref h node
  let h ← setParent h newNode n.parent
  let n ← deref h node
  let h ← setIsRed h newNode n.isRed
  let h ← setIsRed h newParent true
  some (h, newNode)

/-- Source `flipColors(node)`: three writes through pointers, the last two guarded. -/
def flipColors (h : Heap α) (node : Option Nat) : Option (Heap α) := do
  let n ← deref h node
  let h ← setIsRed h node (!n.isRed)
  let n ← deref h node
  let h ← (if n.left.isSome then (do
      let l ← deref h n.left
      setIsRed h n.left (!l.isRed)) else some h)
  let n ← deref h node
  let h ← (if n.right.isSome then (do
      let r ← deref h n.right
      setIsRed h n.right (!r.isRed)) else some h)
  some h

/-- Source `balance(node)`: the three rules in source order; `&&` short-circuits, so
`node->left->left` is read only after `isRed(node->left)` held. -/
def balance (h : Heap α) (node : Option Nat) : Option (Heap α × Option Nat) := do
  let n ← deref h node
  let (h, node) ← (if isRed h n.right && !isRed h n.left then rotateLeft h node
    else some (h, node))
  let n ← deref h node
  let c ← (if isRed h n.left then (do
      let l ← deref h n.left
      some (isRed h l.left)) else some false)
  let (h, node) ← (if c then rotateRight h node else some (h, node))
  let n ← deref h node
  let h ← (if isRed h n.left && isRed h n.right then flipColors h node else some h)
  some (h, node)

variable [LinearOrder α]

/-- Source `insert(node, value)`.  The recursion of the source follows pointers, so the
model recurses on a fuel counter; `add` supplies more fuel than any tree in the heap
is high. -/
def insert : Nat → Heap α → Option Nat → α → Option (Heap α × Option Nat)
  | 0, _, _, _ => none
  | fuel + 1, h, node, value =>
    match node with
    | none => some (alloc h (Node.mk1 value))
    | some _ => do
      let n ← deref h node
      if value < n.data then do
        let (h, newNode) := alloc h n
        let n ← deref h node
        let (h, res) ← insert fuel h n.left value
        let h ← setLeft h newNode res
        let nn ← deref h newNode
        let h ← setParent h nn.left newNode
        balance h newNode
      else if value > n.data then do
        let (h, newNode) := alloc h n
        let n ← deref h node
        let (h, res) ← insert fuel h n.right value
        let h ← setRight h newNode res
        let nn ← deref h newNode
        let h ← setParent h nn.right newNode
        balance h newNode
      else some (h, node)

/-- Source `inOrderTraversal(node)`, on a fuel counter like `insert`. -/
def inOrderTraversal : Nat → Heap α → Option Nat → Option (List α)
  | 0, _, _ => none
  | fuel + 1, h, node =>
    match node with
    | none => some []
    | some _ => do
      let n ← deref h node
      let leftResult ← inOrderTraversal fuel h n.left
      let rightResult ← inOrderTraversal fuel h n.right
      some (leftResult ++ [n.data] ++ rightResult)

end PersistentRBTree

/-- Source `class PersistentRBTree`: a version is its root pointer. -/
structure PersistentRBTree where
  root : Option Nat
deriving DecidableEq

namespace PersistentRBTree

variable {α : Type} [LinearOrder α]

/-- Default constructor: `root(nullptr)`. -/
def empty : PersistentRBTree := { root := none }

/-- Source `add(value)`: insert, blacken the returned root through the pointer, wrap. -/
def add (h : Heap α) (t : PersistentRBTree) (value : α) :
    Option (Heap α × PersistentRBTree) := do
  let (h, newRoot) ← insert (h.length + 1) h t.root value
  let h ← setIsRed h newRoot false
  some (h, { root := newRoot })

/-- Source `getSortedElements()`. -/
def getSortedElements (h : Heap α) (t : PersistentRBTree) : Option (List α) :=
  inOrderTraversal (h.length + 1) h t.root

/-- The driver loop of `main` and of the test case: `rbTree = rbTree.add(word)` for
each key in order, starting from the given version. -/
def addAll (h : Heap α) (t : PersistentRBTree) : List α →
    Option (Heap α × PersistentRBTree)
  | [] => some (h, t)
  | k :: ks => do
    let (h, t) ← add h t k
    addAll h t ks

/-- The fold from the empty version in the empty heap. -/
def build (keys : List α) : Option (Heap α × PersistentRBTree) :=
  addAll [] empty keys

end PersistentRBTree

/-! ## Value layer -/

/-- The tree a pointer denotes: `nil` for `nullptr`, otherwise colour, left subtree,
key, right subtree. -/
inductive VTree (α : Type) where
  | nil : VTree α
  | node (isRed : Bool) (left : VTree α) (data : α) (right : VTree α) : VTree α
deriving DecidableEq

namespace VTree

variable {α : Type}

/-- Source `isRed(node)` on a value: `false` for the empty tree. -/
def isRed : VTree α → Bool
  | nil => false
  | node c _ _ _ => c

/-- Source `node->left` on a value. -/
def left : VTree α → VTree α
  | nil => nil
  | node _ l _ _ => l

/-- Source `node->right` on a value. -/
def right : VTree α → VTree α
  | nil => nil
  | node _ _ _ r => r

/-- What `rotateLeft` builds: the right child on top with the colour of the old top,
the old top below it on the left, RED. -/
def rotateLeft : VTree α → VTree α
  | node c l x (node _ rl y rr) => node c (node true l x rl) y rr
  | t => t

/-- What `rotateRight` builds: the mirror image of `rotateLeft`. -/
def rotateRight : VTree α → VTree α
  | node c (node _ ll y lr) x r => node c ll y (node true lr x r)
  | t => t

/-- A write `p->isRed = c` on the root of a value (nothing to write for `nullptr`). -/
def paint (c : Bool) : VTree α → VTree α
  | nil => nil
  | node _ l x r => node c l x r

/-- Source `node->isRed = !node->isRed` on the root of a value. -/
def flipRoot (t : VTree α) : VTree α :=
  paint (!t.isRed) t

/-- What `flipColors` leaves behind: the node and both children inverted. -/
def flipColors : VTree α → VTree α
  | nil => nil
  | node c l x r => node (!c) (flipRoot l) x (flipRoot r)

/-- What `balance` returns: the three rules in source order. -/
def balance (t : VTree α) : VTree α :=
  let t1 := if t.right.isRed && !t.left.isRed then t.rotateLeft else t
  let t2 := if t1.left.isRed && t1.left.left.isRed then t1.rotateRight else t1
  if t2.left.isRed && t2.right.isRed then t2.flipColors else t2

/-- What `insert` returns. -/
def insert [LinearOrder α] : VTree α → α → VTree α
  | nil, value => node true nil value nil
  | node c l x r, value =>
    if value < x then balance (node c (insert l value) x r)
    else if value > x then balance (node c l x (insert r value))
    else node c l x r

/-- Source `newRoot->isRed = false` on a value. -/
def blacken (t : VTree α) : VTree α :=
  paint false t

/-- What `add` publishes. -/
def add [LinearOrder α] (t : VTree α) (value : α) : VTree α :=
  blacken (insert t value)

/-- What `inOrderTraversal` returns. -/
def inOrder : VTree α → List α
  | nil => []
  | node _ l x r => inOrder l ++ [x] ++ inOrder r

/-- Number of nodes on the longest path from the root to an empty position. -/
def height : VTree α → Nat
  | nil => 0
  | node _ l _ r => max (height l) (height r) + 1

end VTree

namespace PersistentRBTree

variable {α : Type}

/-- The tree denoted by a pointer, read back from the heap (on a fuel counter). -/
def readTree : Nat → Heap α → Option Nat → Option (VTree α)
  | 0, _, _ => none
  | fuel + 1, h, p =>
    match p with
    | none => some VTree.nil
    | some _ => do
      let n ← deref h p
      let l ← readTree fuel h n.left
      let r ← readTree fuel h n.right
      some (VTree.node n.isRed l n.data r)

/-- The tree of a version in a heap. -/
def toTree (h : Heap α) (t : PersistentRBTree) : Option (VTree α) :=
  readTree (h.length + 1) h t.root

/-- Ownership `Owns h p t f`: in heap `h` pointer `p` denotes tree `t`, and `f` lists the
addresses of its nodes (root, then left subtree, then right subtree). -/
inductive Owns (h : Heap α) : Option Nat → VTree α → List Nat → Prop
  | nil : Owns h none VTree.nil []
  | node {a : Nat} {n : Node α} {l r : VTree α} {fl fr : List Nat} :
      h[a]? = some n → Owns h n.left l fl → Owns h n.right r fr →
      Owns h (some a) (VTree.node n.isRed l n.data r) (a :: (fl ++ fr))

/-- A pointer is the root of a well-formed tree: it denotes some tree and no node
occurs twice in it. -/
def IsTree (h : Heap α) (p : Option Nat) : Prop :=
  ∃ t f, Owns h p t f ∧ f.Nodup

end PersistentRBTree

/-! ## Predicates and proof devices -/

namespace PersistentRBTree

variable {α : Type}

/-- Two nodes that agree on everything a traversal reads: key and child pointers. -/
def Node.sameShape (n n' : Node α) : Prop :=
  n'.data = n.data ∧ n'.left = n.left ∧ n'.right = n.right

/-- Frame condition of an operation started in a heap of `N` nodes on a tree with
addresses `f`: every older node keeps key and child pointers, and keeps its colour
unless it belongs to `f`. -/
def Frame (N : Nat) (f : List Nat) (h h' : Heap α) : Prop :=
  ∀ c < N, ∀ n, h[c]? = some n →
    ∃ n', h'[c]? = some n' ∧ Node.sameShape n n' ∧ (c ∉ f → n'.isRed = n.isRed)

/-- Outcome of an operation that started in heap `h` on a tree with addresses `f`:
in the heap `H` reached, `q` denotes `t`, no node occurs twice in it, each of its
nodes is a node of the old tree or a new one, and the frame condition holds. -/
structure Reach (h : Heap α) (f : List Nat) (H : Heap α) (q : Option Nat) (t : VTree α) :
    Prop where
  owns : ∃ f', Owns H q t f' ∧ f'.Nodup ∧ ∀ z ∈ f', z ∈ f ∨ h.length ≤ z
  len : h.length ≤ H.length
  frame : Frame h.length f h H

/-- The guarded write `if (p) p->isRed = !p->isRed` of `flipColors`. -/
def flipChild (h : Heap α) (p : Option Nat) : Option (Heap α) :=
  if p.isSome then (deref h p).bind (fun l => setIsRed h p (!l.isRed)) else some h

/-- First rule of `balance`. -/
def balStep1 (h : Heap α) (node : Option Nat) : Option (Heap α × Option Nat) :=
  (deref h node).bind fun n =>
    if isRed h n.right && !isRed h n.left then rotateLeft h node else some (h, node)

/-- Second rule of `balance`. -/
def balStep2 (h : Heap α) (node : Option Nat) : Option (Heap α × Option Nat) :=
  (deref h node).bind fun n =>
    (if isRed h n.left then (deref h n.left).bind (fun l => some (isRed h l.left))
      else some false).bind fun c =>
    if c then rotateRight h node else some (h, node)

/-- Third rule of `balance`. -/
def balStep3 (h : Heap α) (node : Option Nat) : Option (Heap α × Option Nat) :=
  (deref h node).bind fun n =>
    (if isRed h n.left && isRed h n.right then flipColors h node else some h).bind fun h3 =>
    some (h3, node)

end PersistentRBTree

namespace VTree

variable {α : Type}

/-- First rule of `balance` on values. -/
def bal1 (t : VTree α) : VTree α :=
  if t.right.isRed && !t.left.isRed then t.rotateLeft else t

/-- Second rule of `balance` on values. -/
def bal2 (t : VTree α) : VTree α :=
  if t.left.isRed && t.left.left.isRed then t.rotateRight else t

/-- Third rule of `balance` on values. -/
def bal3 (t : VTree α) : VTree α :=
  if t.left.isRed && t.right.isRed then t.flipColors else t

/-- A tree with a root node. -/
def IsNode : VTree α → Prop
  | nil => False
  | node _ _ _ _ => True

/-- Invariants 1 and 2 of the data model (search-tree order, no key twice), read off
the in-order key sequence: it is strictly increasing. -/
def Ordered [LinearOrder α] (t : VTree α) : Prop :=
  t.inOrder.Sorted (· < ·)

/-- Left-leaning red-black shape: `Bal t c n` says that `t` has root colour `c`
(`true` is RED), that every path to an empty position crosses `n` BLACK nodes, that
a RED node has BLACK children, and that a right child is never RED. -/
inductive Bal : VTree α → Bool → Nat → Prop
  | nil : Bal nil false 0
  | red {l r : VTree α} {x : α} {n : Nat} :
      Bal l false n → Bal r false n → Bal (node true l x r) true n
  | black {l r : VTree α} {x : α} {c : Bool} {n : Nat} :
      Bal l c n → Bal r false n → Bal (node false l x r) false (n + 1)

/-- The one defect the recursion hands upward: a RED node whose left child is RED. -/
inductive RedRed : VTree α → Nat → Prop
  | mk {l r : VTree α} {x : α} {n : Nat} :
      Bal l true n → Bal r false n → RedRed (node true l x r) n

/-- Number of BLACK nodes on each path from the root to an empty position, one entry
per path, left to right. -/
def blackCounts : VTree α → List Nat
  | nil => [0]
  | node c l _ r => (blackCounts l ++ blackCounts r).map (fun b => b + (if c then 0 else 1))

/-- No RED node has a RED child, left or right. -/
def noRedRed : VTree α → Bool
  | nil => true
  | node c l _ r => (!c || (!l.isRed && !r.isRed)) && noRedRed l && noRedRed r

end VTree

namespace PersistentRBTree

variable {α : Type}

/-- The heap after the driver loop has added 10 and then 20 to the empty version. -/
def heapAfter10And20 : Heap Int :=
  [⟨10, none, none, none, false⟩, ⟨10, none, some 2, none, false⟩, ⟨20, none, none, some 1, true⟩,
   ⟨20, some 4, none, none, false⟩, ⟨10, none, none, some 3, true⟩]

/-- The version published by that loop: its root is the node at address 3. -/
def versionAfter10And20 : PersistentRBTree := { root := some 3 }

end PersistentRBTree

namespace VTree

variable {α : Type}

/-- No node has a RED right child. -/
def noRedRight : VTree α → Bool
  | nil => true
  | node _ l _ r => !r.isRed && noRedRight l && noRedRight r

end VTree

namespace PersistentRBTree

variable {α : Type}

/-- A heap holding a BLACK node 10 whose right child is a RED node 20. -/
def heapRightLeaning : Heap Int :=
  [⟨10, none, some 1, none, false⟩, ⟨20, none, none, some 0, true⟩]

end PersistentRBTree

/-! ## tokenize -/

namespace Tokenizer

/-- C library `isspace` in the "C" locale, on byte values: space, and the controls
tab, newline, vertical tab, form feed, carriage return. -/
def isspace (c : Nat) : Bool :=
  c == 32 || (9 ≤ c && c ≤ 13)

/-- C library `isdigit`: the bytes of '0' to '9'. -/
def isdigit (c : Nat) : Bool :=
  48 ≤ c && c ≤ 57

/-- C library `ispunct` in the "C" locale: the printable bytes that are neither
space nor alphanumeric. -/
def ispunct (c : Nat) : Bool :=
  (33 ≤ c && c ≤ 47) || (58 ≤ c && c ≤ 64) || (91 ≤ c && c ≤ 96) || (123 ≤ c && c ≤ 126)

/-- C library `isupper` in the "C" locale: the bytes of 'A' to 'Z'. -/
def isupper (c : Nat) : Bool :=
  65 ≤ c && c ≤ 90

/-- C library `tolower` in the "C" locale, applied to a `char` as the source does
(`std::transform(..., ::tolower)`): defined on the ASCII bytes; a byte from 128 on is
a negative `char` where `char` is signed, outside the domain of `tolower`. -/
def tolower (c : Nat) : Option Nat :=
  if c < 128 then some (if isupper c then c + 32 else c) else none

/-- Source `ss >> word` on the rest of the stream: skip leading whitespace, read up
to the next whitespace or the end, fail when nothing is left. Returns the word and
the rest of the stream. -/
def extract (ss : List Nat) : Option (List Nat × List Nat) :=
  let s1 := ss.dropWhile isspace
  if s1.isEmpty then none
  else some (s1.takeWhile (fun c => !isspace c), s1.dropWhile (fun c => !isspace c))

/-- The `while (ss >> word)` loop of `tokenize`, on a fuel counter: erase the
punctuation and digit bytes, lower every remaining byte, keep the word unless it is
empty. -/
def tokenizeLoop : Nat → List Nat → List (List Nat) → Option (List (List Nat))
  | 0, _, _ => none
  | fuel + 1, ss, words =>
    match extract ss with
    | none => some words
    | some (word, ss) => do
      let word := word.filter (fun c => !(ispunct c || isdigit c))
      let word ← word.mapM tolower
      let words := if !word.isEmpty then words ++ [word] else words
      tokenizeLoop fuel ss words

/-- Source `tokenize(text)`; a text is the list of its bytes. -/
def tokenize (text : List Nat) : Option (List (List Nat)) :=
  tokenizeLoop (text.length + 1) text []

/-- The whitespace-separated tokens of a text, in order: the non-empty pieces
between whitespace bytes. -/
def whitespaceTokens (text : List Nat) : List (List Nat) :=
  (text.splitOnP isspace).filter (fun w => !w.isEmpty)

/-- A token with punctuation and digits stripped and upper-case letters folded. -/
def normalize (w : List Nat) : List Nat :=
  (w.filter (fun c => !(ispunct c || isdigit c))).map (fun c => if isupper c then c + 32 else c)

end Tokenizer

/-! ## The colour flip as an assignment -/

namespace PersistentRBTree

variable {α : Type}

/-- The colour flip of the claim's second reading: the node becomes RED, both
children become BLACK (each child write guarded as in `flipColors`). -/
def flipColorsAssign (h : Heap α) (node : Option Nat) : Option (Heap α) := do
  let h ← setIsRed h node true
  let n ← deref h node
  let h ← (if n.left.isSome then setIsRed h n.left false else some h)
  let n ← deref h node
  let h ← (if n.right.isSome then setIsRed h n.right false else some h)
  some h

/-- Source `balance(node)` with `flipColors` replaced by `flipColorsAssign`. -/
def balanceAssign (h : Heap α) (node : Option Nat) : Option (Heap α × Option Nat) := do
  let n ← deref h node
  let (h, node) ← (if isRed h n.right && !isRed h n.left then rotateLeft h node
    else some (h, node))
  let n ← deref h node
  let c ← (if isRed h n.left then (do
      let l ← deref h n.left
      some (isRed h l.left)) else some false)
  let (h, node) ← (if c then rotateRight h node else some (h, node))
  let n ← deref h node
  let h ← (if isRed h n.left && isRed h n.right then flipColorsAssign h node else some h)
  some (h, node)

/-- Source `insert(node, value)` with `balance` replaced by `balanceAssign`. -/
def insertAssign [LinearOrder α] : Nat → Heap α → Option Nat → α → Option (Heap α × Option Nat)
  | 0, _, _, _ => none
  | fuel + 1, h, node, value =>
    match node with
    | none => some (alloc h (Node.mk1 value))
    | some _ => do
      let n ← deref h node
      if value < n.data then do
        let (h, newNode) := alloc h n
        let n ← deref h node
        let (h, res) ← insertAssign fuel h n.left value
        let h ← setLeft h newNode res
        let nn ← deref h newNode
        let h ← setParent h nn.left newNode
        balanceAssign h newNode
      else if value > n.data then do
        let (h, newNode) := alloc h n
        let n ← deref h node
        let (h, res) ← insertAssign fuel h n.right value
        let h ← setRight h newNode res
        let nn ← deref h newNode
        let h ← setParent h nn.right newNode
        balanceAssign h newNode
      else some (h, node)

/-- Source `add(value)` with `insert` replaced by `insertAssign`. -/
def addAssign [LinearOrder α] (h : Heap α) (t : PersistentRBTree) (value : α) :
    Option (Heap α × PersistentRBTree) := do
  let (h, newRoot) ← insertAssign (h.length + 1) h t.root value
  let h ← setIsRed h newRoot false
  some (h, { root := newRoot })

/-- Third rule of `balanceAssign`. -/
def balStep3Assign (h : Heap α) (node : Option Nat) : Option (Heap α × Option Nat) :=
  (deref h node).bind fun n =>
    (if isRed h n.left && isRed h n.right then flipColorsAssign h node else some h).bind
      fun h3 => some (h3, node)

end PersistentRBTree

namespace VTree

variable {α : Type}

/-- Whenever the third rule of `balance` fires on `t`, the node it fires on is
BLACK (its children are RED by the rule's own test). -/
def FlipSafe (t : VTree α) : Prop :=
  ((bal2 (bal1 t)).left.isRed && (bal2 (bal1 t)).right.isRed) = true →
    (bal2 (bal1 t)).isRed = false

end VTree

/-! ## Lemmas -/

namespace VTree
variable {α : Type}

@[simp] theorem isRed_nil : (nil : VTree α).isRed = false := rfl
@[simp] theorem isRed_node (c : Bool) (l : VTree α) (x : α) (r : VTree α) :
    (node c l x r).isRed = c := rfl
@[simp] theorem left_node (c : Bool) (l : VTree α) (x : α) (r : VTree α) :
    (node c l x r).left = l := rfl
@[simp] theorem right_node (c : Bool) (l : VTree α) (x : α) (r : VTree α) :
    (node c l x r).right = r := rfl
@[simp] theorem left_nil : (nil : VTree α).left = nil := rfl
@[simp] theorem right_nil : (nil : VTree α).right = nil := rfl

end VTree

namespace PersistentRBTree
variable {α : Type}

theorem Frame.same_heap (N : Nat) (f : List Nat) (h : Heap α) : Frame N f h h :=
  fun _ _ n hn => ⟨n, hn, ⟨rfl, rfl, rfl⟩, fun _ => rfl⟩

theorem Frame.trans {N : Nat} {f : List Nat} {h h1 h2 : Heap α}
    (a : Frame N f h h1) (b : Frame N f h1 h2) : Frame N f h h2 := by
  intro c hc n hn
  obtain ⟨n1, h1n, ⟨d1, l1, r1⟩, c1⟩ := a c hc n hn
  obtain ⟨n2, h2n, ⟨d2, l2, r2⟩, c2⟩ := b c hc n1 h1n
  exact ⟨n2, h2n, ⟨d2.trans d1, l2.trans l1, r2.trans r1⟩, fun hf => (c2 hf).trans (c1 hf)⟩

theorem Frame.weaken {N N' : Nat} {f f' : List Nat} {h h' : Heap α}
    (a : Frame N' f' h h') (hN : N ≤ N') (hf : ∀ c < N, c ∈ f' → c ∈ f) : Frame N f h h' := by
  intro c hc n hn
  obtain ⟨n1, h1n, hs, c1⟩ := a c (by omega) n hn
  exact ⟨n1, h1n, hs, fun hcf => c1 (fun hcf' => hcf (hf c hc hcf'))⟩

theorem Frame.push (N : Nat) (f : List Nat) (h : Heap α) (n : Node α) :
    Frame N f h (h ++ [n]) := by
  intro c _ m hm
  refine ⟨m, ?_, ⟨rfl, rfl, rfl⟩, fun _ => rfl⟩
  have hlt : c < h.length := (List.getElem?_eq_some_iff.1 hm).1
  rw [List.getElem?_append_left hlt]; exact hm

/-- Writing a node that did not exist when the operation started. -/
theorem Frame.set_new {N : Nat} (f : List Nat) (h : Heap α) {a : Nat} (n : Node α)
    (ha : N ≤ a) : Frame N f h (h.set a n) := by
  intro c hc m hm
  refine ⟨m, ?_, ⟨rfl, rfl, rfl⟩, fun _ => rfl⟩
  rw [List.getElem?_set_ne (by omega)]; exact hm

/-- Overwriting a node with one of the same key and children (and colour, unless the
node is in `f`). -/
theorem Frame.set_same {N : Nat} {f : List Nat} {h : Heap α} {a : Nat} {n n' : Node α}
    (hn : h[a]? = some n) (hs : Node.sameShape n n') (hc : a ∉ f → n'.isRed = n.isRed) :
    Frame N f h (h.set a n') := by
  intro c _ m hm
  by_cases hca : a = c
  · subst hca
    have hlt : a < h.length := (List.getElem?_eq_some_iff.1 hm).1
    rw [hn] at hm; cases hm
    exact ⟨n', by simp [List.getElem?_set_self, hlt], hs, hc⟩
  · exact ⟨m, by rw [List.getElem?_set_ne hca]; exact hm, ⟨rfl, rfl, rfl⟩, fun _ => rfl⟩

end PersistentRBTree

namespace PersistentRBTree
variable {α : Type}

theorem Owns.mk' {h : Heap α} {a : Nat} {n : Node α} {c : Bool} {x : α} {l r : VTree α}
    {fl fr : List Nat} (hn : h[a]? = some n) (hc : n.isRed = c) (hx : n.data = x)
    (hl : Owns h n.left l fl) (hr : Owns h n.right r fr) :
    Owns h (some a) (VTree.node c l x r) (a :: (fl ++ fr)) := by
  subst hc; subst hx; exact Owns.node hn hl hr

theorem Owns.inv_node {h : Heap α} {p : Option Nat} {c : Bool} {x : α} {l r : VTree α}
    {f : List Nat} (o : Owns h p (VTree.node c l x r) f) :
    ∃ a n fl fr, p = some a ∧ f = a :: (fl ++ fr) ∧ h[a]? = some n ∧ n.isRed = c ∧
      n.data = x ∧ Owns h n.left l fl ∧ Owns h n.right r fr := by
  cases o with
  | node hn hl hr => exact ⟨_, _, _, _, rfl, rfl, hn, rfl, rfl, hl, hr⟩

theorem Owns.inv_nil {h : Heap α} {p : Option Nat} {f : List Nat}
    (o : Owns h p VTree.nil f) : p = none ∧ f = [] := by
  cases o; exact ⟨rfl, rfl⟩

theorem Owns.lt {h : Heap α} {p : Option Nat} {t : VTree α} {f : List Nat}
    (o : Owns h p t f) : ∀ x ∈ f, x < h.length := by
  induction o with
  | nil => intro x hx; cases hx
  | node hn _ _ ihl ihr =>
    intro x hx
    rcases List.mem_cons.1 hx with rfl | hx
    · exact (List.getElem?_eq_some_iff.1 hn).1
    · rcases List.mem_append.1 hx with hx | hx
      · exact ihl x hx
      · exact ihr x hx

/-- A tree survives any change of the heap that keeps key, children and colour of
its own nodes. -/
theorem Owns.congr {h h' : Heap α} {p : Option Nat} {t : VTree α} {f : List Nat}
    (o : Owns h p t f)
    (hh : ∀ x ∈ f, ∀ n, h[x]? = some n →
      ∃ n', h'[x]? = some n' ∧ Node.sameShape n n' ∧ n'.isRed = n.isRed) :
    Owns h' p t f := by
  induction o with
  | nil => exact Owns.nil
  | node hn _ _ ihl ihr =>
    obtain ⟨n', hn', ⟨hd, hl, hr⟩, hc⟩ := hh _ (List.mem_cons_self _ _) _ hn
    refine Owns.mk' hn' hc hd ?_ ?_
    · rw [hl]; exact ihl (fun x hx => hh x (List.mem_cons_of_mem _ (List.mem_append_left _ hx)))
    · rw [hr]; exact ihr (fun x hx => hh x (List.mem_cons_of_mem _ (List.mem_append_right _ hx)))

theorem Owns.frame {N : Nat} {g : List Nat} {h h' : Heap α} {p : Option Nat} {t : VTree α}
    {f : List Nat} (o : Owns h p t f) (fr : Frame N g h h')
    (hf : ∀ x ∈ f, x < N ∧ x ∉ g) : Owns h' p t f :=
  o.congr (fun x hx n hn =>
    let ⟨n', a, b, c⟩ := fr x (hf x hx).1 n hn
    ⟨n', a, b, c (hf x hx).2⟩)

theorem Owns.alloc {h : Heap α} {p : Option Nat} {t : VTree α} {f : List Nat}
    (o : Owns h p t f) (n : Node α) : Owns (h ++ [n]) p t f :=
  o.frame (Frame.push h.length [] h n) (fun x hx => ⟨o.lt x hx, List.not_mem_nil x⟩)

theorem Owns.set_notin {h : Heap α} {p : Option Nat} {t : VTree α} {f : List Nat}
    (o : Owns h p t f) {a : Nat} (ha : a ∉ f) (n : Node α) : Owns (h.set a n) p t f :=
  o.congr (fun x hx m hm =>
    ⟨m, by rw [List.getElem?_set_ne (fun e : a = x => ha (by rw [e]; exact hx))]; exact hm, ⟨rfl, rfl, rfl⟩, rfl⟩)

/-- A write that keeps key, children and colour of the node keeps every tree. -/
theorem Owns.set_keep {h : Heap α} {p : Option Nat} {t : VTree α} {f : List Nat}
    (o : Owns h p t f) {a : Nat} {n n' : Node α} (hn : h[a]? = some n)
    (hs : Node.sameShape n n') (hc : n'.isRed = n.isRed) : Owns (h.set a n') p t f :=
  o.frame (Frame.set_same (N := h.length) (f := []) hn hs (fun _ => hc))
    (fun x hx => ⟨o.lt x hx, List.not_mem_nil x⟩)

theorem Owns.isRed_eq {h : Heap α} {p : Option Nat} {t : VTree α} {f : List Nat}
    (o : Owns h p t f) : isRed h p = t.isRed := by
  cases o with
  | nil => rfl
  | node hn _ _ => simp [PersistentRBTree.isRed, deref, hn]

/-- Recolouring the root node of a tree recolours the root of its value. -/
theorem Owns.repaint {h : Heap α} {a : Nat} {t : VTree α} {f : List Nat}
    (o : Owns h (some a) t f) (hf : f.Nodup) {n : Node α} (hn : h[a]? = some n) (c : Bool) :
    Owns (h.set a { n with isRed := c }) (some a) (VTree.paint c t) f := by
  cases o with
  | node hm hl hr =>
    rw [hn] at hm; cases hm
    have hlt : a < h.length := (List.getElem?_eq_some_iff.1 hn).1
    have hnd := List.nodup_cons.1 hf
    refine Owns.mk' (n := { n with isRed := c }) (by simp [List.getElem?_set_self, hlt]) rfl rfl ?_ ?_
    · exact hl.set_notin (fun hx => hnd.1 (List.mem_append_left _ hx)) _
    · exact hr.set_notin (fun hx => hnd.1 (List.mem_append_right _ hx)) _

end PersistentRBTree

namespace PersistentRBTree
variable {α : Type}

@[simp] theorem deref_some (h : Heap α) (a : Nat) : deref h (some a) = h[a]? := rfl
@[simp] theorem deref_none (h : Heap α) : deref h none = none := rfl

theorem setLeft_bind (h : Heap α) (a : Nat) (v : Option Nat) :
    setLeft h (some a) v = h[a]?.bind (fun n => some (h.set a { n with left := v })) := by
  unfold setLeft; rw [deref_some]; cases h[a]? <;> rfl

theorem setRight_bind (h : Heap α) (a : Nat) (v : Option Nat) :
    setRight h (some a) v = h[a]?.bind (fun n => some (h.set a { n with right := v })) := by
  unfold setRight; rw [deref_some]; cases h[a]? <;> rfl

theorem setParent_bind (h : Heap α) (a : Nat) (v : Option Nat) :
    setParent h (some a) v = h[a]?.bind (fun n => some (h.set a { n with parent := v })) := by
  unfold setParent; rw [deref_some]; cases h[a]? <;> rfl

theorem setIsRed_bind (h : Heap α) (a : Nat) (c : Bool) :
    setIsRed h (some a) c = h[a]?.bind (fun n => some (h.set a { n with isRed := c })) := by
  unfold setIsRed; rw [deref_some]; cases h[a]? <;> rfl

theorem getElem?_push_lt {h : Heap α} {a : Nat} (n : Node α) (ha : a < h.length) :
    (h ++ [n])[a]? = h[a]? := List.getElem?_append_left ha

theorem getElem?_push_eq (h : Heap α) (n : Node α) :
    (h ++ [n])[h.length]? = some n := by
  rw [List.getElem?_append_right (le_refl _)]; simp

theorem getElem?_push2_eq (h : Heap α) (m n : Node α) :
    (h ++ [m] ++ [n])[h.length + 1]? = some n := by
  rw [List.getElem?_append_right (by simp)]; simp

theorem getElem?_push2_fst (h : Heap α) (m n : Node α) :
    (h ++ [m] ++ [n])[h.length]? = some m := by
  rw [List.getElem?_append_left (by simp)]; exact getElem?_push_eq h m

theorem getElem?_push2_lt {h : Heap α} {a : Nat} (m n : Node α) (ha : a < h.length) :
    (h ++ [m] ++ [n])[a]? = h[a]? := by
  rw [List.getElem?_append_left (by simp; omega)]; exact getElem?_push_lt m ha

theorem frame_of_parent {N : Nat} {h H : Heap α}
    (hp : ∀ c < N, ∀ k, h[c]? = some k → ∃ p, H[c]? = some { k with parent := p }) :
    Frame N [] h H := by
  intro c hc k hk
  obtain ⟨p, e⟩ := hp c hc k hk
  exact ⟨_, e, ⟨rfl, rfl, rfl⟩, fun _ => rfl⟩

theorem rotateLeft_run {h : Heap α} {a b : Nat} {n m : Node α} (hn : h[a]? = some n)
    (hb : n.right = some b) (hm : h[b]? = some m)
    (hcl : ∀ cl, m.left = some cl → cl ≠ a ∧ ∃ k, h[cl]? = some k) :
    ∃ H, rotateLeft h (some a) = some (H, some h.length) ∧ H.length = h.length + 2 ∧
      (∃ p, H[h.length]? = some ⟨m.data, some (h.length + 1), m.right, p, n.isRed⟩) ∧
      (∃ p, H[h.length + 1]? = some ⟨n.data, n.left, m.left, p, true⟩) ∧
      (∀ c < h.length, ∀ k, h[c]? = some k → ∃ p, H[c]? = some { k with parent := p }) := by
  have hlen_a : a < h.length := (List.getElem?_eq_some_iff.1 hn).1
  have hne1 : a ≠ h.length := by omega
  have hne2 : a ≠ h.length + 1 := by omega
  rcases hml : m.left with _ | cl
  · refine ⟨?H, ?e, ?_, ?_, ?_, ?_⟩
    case e =>
      simp only [rotateLeft, deref_some, hn, hb, hm, alloc, Option.bind_eq_bind, Option.some_bind,
        List.length_append, List.length_singleton, setLeft_bind, setRight_bind, setParent_bind,
        setIsRed_bind, List.getElem?_set, List.length_set, getElem?_push2_eq, getElem?_push2_fst,
        getElem?_push2_lt _ _ hlen_a, getElem?_push_lt _ hlen_a,
        hml, Option.isSome_none, Bool.false_eq_true, if_false,
        if_true, Nat.lt_succ_self, Nat.succ_ne_self, hne1.symm, hne2.symm, Nat.lt_add_one,
        Nat.lt_succ_of_lt, lt_add_iff_pos_right, Nat.lt_add_right, zero_lt_one, self_eq_add_right,
        add_right_eq_self, one_ne_zero, reduceCtorEq]
      exact rfl
    · simp
    · exact ⟨_, by simp only [List.getElem?_set, List.length_set, List.length_append,
        List.length_singleton, Nat.succ_ne_self, Nat.lt_add_one, Nat.lt_succ_of_lt, if_true,
        if_false, self_eq_add_right, add_right_eq_self, one_ne_zero, reduceCtorEq]; exact rfl⟩
    · exact ⟨_, by simp only [List.getElem?_set, List.length_set, List.length_append,
        List.length_singleton, Nat.succ_ne_self, Nat.lt_add_one, Nat.lt_succ_of_lt, if_true,
        if_false, self_eq_add_right, add_right_eq_self, one_ne_zero, reduceCtorEq]; exact rfl⟩
    · intro c hc k hk
      have h1 : h.length + 1 ≠ c := by omega
      have h2 : h.length ≠ c := by omega
      refine ⟨k.parent, ?_⟩
      simp only [List.getElem?_set, h1, h2, if_false, getElem?_push2_lt _ _ hc, hk]
  · obtain ⟨hcla, k, hk⟩ := hcl cl hml
    have hlen_c : cl < h.length := (List.getElem?_eq_some_iff.1 hk).1
    have hne3 : cl ≠ h.length := by omega
    have hne4 : cl ≠ h.length + 1 := by omega
    refine ⟨?H2, ?e2, ?_, ?_, ?_, ?_⟩
    case e2 =>
      simp only [rotateLeft, deref_some, hn, hb, hm, alloc, Option.bind_eq_bind, Option.some_bind,
        List.length_append, List.length_singleton, setLeft_bind, setRight_bind, setParent_bind,
        setIsRed_bind, List.getElem?_set, List.length_set, getElem?_push2_eq, getElem?_push2_fst,
        getElem?_push2_lt _ _ hlen_a, getElem?_push_lt _ hlen_a, getElem?_push2_lt _ _ hlen_c,
        hml, Option.isSome_some, hk, if_false, hcla, hcla.symm,
        if_true, Nat.lt_succ_self, Nat.succ_ne_self, hne1, hne2, hne3, hne4, hne1.symm, hne2.symm, hne3.symm, hne4.symm,
        Nat.lt_add_one,
        Nat.lt_succ_of_lt, lt_add_iff_pos_right, Nat.lt_add_right, zero_lt_one, self_eq_add_right,
        add_right_eq_self, one_ne_zero, reduceCtorEq]
      exact rfl
    · simp
    · exact ⟨_, by simp only [List.getElem?_set, List.length_set, List.length_append,
        List.length_singleton, Nat.succ_ne_self, Nat.lt_add_one, Nat.lt_succ_of_lt, if_true,
        if_false, self_eq_add_right, add_right_eq_self, one_ne_zero, reduceCtorEq]; exact rfl⟩
    · exact ⟨_, by simp only [List.getElem?_set, List.length_set, List.length_append,
        List.length_singleton, Nat.succ_ne_self, Nat.lt_add_one, Nat.lt_succ_of_lt, if_true,
        if_false, self_eq_add_right, add_right_eq_self, one_ne_zero, reduceCtorEq]; exact rfl⟩
    · intro c hc k' hk'
      have h1 : h.length + 1 ≠ c := by omega
      have h2 : h.length ≠ c := by omega
      by_cases hcc : cl = c
      · subst hcc
        rw [hk] at hk'; cases hk'
        refine ⟨some (h.length + 1), ?_⟩
        have h3 : cl < h.length + 1 + 1 := by omega
        simp only [List.getElem?_set, h1, h2, h3, if_false, if_true, List.length_set,
          List.length_append, List.length_singleton]
      · refine ⟨k'.parent, ?_⟩
        simp only [List.getElem?_set, h1, h2, hcc, if_false, getElem?_push2_lt _ _ hc, hk']

theorem rotateRight_run {h : Heap α} {a b : Nat} {n m : Node α} (hn : h[a]? = some n)
    (hb : n.left = some b) (hm : h[b]? = some m)
    (hcl : ∀ cl, m.right = some cl → cl ≠ a ∧ ∃ k, h[cl]? = some k) :
    ∃ H, rotateRight h (some a) = some (H, some h.length) ∧ H.length = h.length + 2 ∧
      (∃ p, H[h.length]? = some ⟨m.data, m.left, some (h.length + 1), p, n.isRed⟩) ∧
      (∃ p, H[h.length + 1]? = some ⟨n.data, m.right, n.right, p, true⟩) ∧
      (∀ c < h.length, ∀ k, h[c]? = some k → ∃ p, H[c]? = some { k with parent := p }) := by
  have hlen_a : a < h.length := (List.getElem?_eq_some_iff.1 hn).1
  have hne1 : a ≠ h.length := by omega
  have hne2 : a ≠ h.length + 1 := by omega
  rcases hml : m.right with _ | cl
  · refine ⟨?H, ?e, ?_, ?_, ?_, ?_⟩
    case e =>
      simp only [rotateRight, deref_some, hn, hb, hm, alloc, Option.bind_eq_bind, Option.some_bind,
        List.length_append, List.length_singleton, setRight_bind, setLeft_bind, setParent_bind,
        setIsRed_bind, List.getElem?_set, List.length_set, getElem?_push2_eq, getElem?_push2_fst,
        getElem?_push2_lt _ _ hlen_a, getElem?_push_lt _ hlen_a,
        hml, Option.isSome_none, Bool.false_eq_true, if_false,
        if_true, Nat.lt_succ_self, Nat.succ_ne_self, hne1.symm, hne2.symm, Nat.lt_add_one,
        Nat.lt_succ_of_lt, lt_add_iff_pos_right, Nat.lt_add_right, zero_lt_one, self_eq_add_right,
        add_right_eq_self, one_ne_zero, reduceCtorEq]
      exact rfl
    · simp
    · exact ⟨_, by simp only [List.getElem?_set, List.length_set, List.length_append,
        List.length_singleton, Nat.succ_ne_self, Nat.lt_add_one, Nat.lt_succ_of_lt, if_true,
        if_false, self_eq_add_right, add_right_eq_self, one_ne_zero, reduceCtorEq]; exact rfl⟩
    · exact ⟨_, by simp only [List.getElem?_set, List.length_set, List.length_append,
        List.length_singleton, Nat.succ_ne_self, Nat.lt_add_one, Nat.lt_succ_of_lt, if_true,
        if_false, self_eq_add_right, add_right_eq_self, one_ne_zero, reduceCtorEq]; exact rfl⟩
    · intro c hc k hk
      have h1 : h.length + 1 ≠ c := by omega
      have h2 : h.length ≠ c := by omega
      refine ⟨k.parent, ?_⟩
      simp only [List.getElem?_set, h1, h2, if_false, getElem?_push2_lt _ _ hc, hk]
  · obtain ⟨hcla, k, hk⟩ := hcl cl hml
    have hlen_c : cl < h.length := (List.getElem?_eq_some_iff.1 hk).1
    have hne3 : cl ≠ h.length := by omega
    have hne4 : cl ≠ h.length + 1 := by omega
    refine ⟨?H2, ?e2, ?_, ?_, ?_, ?_⟩
    case e2 =>
      simp only [rotateRight, deref_some, hn, hb, hm, alloc, Option.bind_eq_bind, Option.some_bind,
        List.length_append, List.length_singleton, setRight_bind, setLeft_bind, setParent_bind,
        setIsRed_bind, List.getElem?_set, List.length_set, getElem?_push2_eq, getElem?_push2_fst,
        getElem?_push2_lt _ _ hlen_a, getElem?_push_lt _ hlen_a, getElem?_push2_lt _ _ hlen_c,
        hml, Option.isSome_some, hk, if_false, hcla, hcla.symm,
        if_true, Nat.lt_succ_self, Nat.succ_ne_self, hne1, hne2, hne3, hne4, hne1.symm, hne2.symm, hne3.symm, hne4.symm,
        Nat.lt_add_one,
        Nat.lt_succ_of_lt, lt_add_iff_pos_right, Nat.lt_add_right, zero_lt_one, self_eq_add_right,
        add_right_eq_self, one_ne_zero, reduceCtorEq]
      exact rfl
    · simp
    · exact ⟨_, by simp only [List.getElem?_set, List.length_set, List.length_append,
        List.length_singleton, Nat.succ_ne_self, Nat.lt_add_one, Nat.lt_succ_of_lt, if_true,
        if_false, self_eq_add_right, add_right_eq_self, one_ne_zero, reduceCtorEq]; exact rfl⟩
    · exact ⟨_, by simp only [List.getElem?_set, List.length_set, List.length_append,
        List.length_singleton, Nat.succ_ne_self, Nat.lt_add_one, Nat.lt_succ_of_lt, if_true,
        if_false, self_eq_add_right, add_right_eq_self, one_ne_zero, reduceCtorEq]; exact rfl⟩
    · intro c hc k' hk'
      have h1 : h.length + 1 ≠ c := by omega
      have h2 : h.length ≠ c := by omega
      by_cases hcc : cl = c
      · subst hcc
        rw [hk] at hk'; cases hk'
        refine ⟨some (h.length + 1), ?_⟩
        have h3 : cl < h.length + 1 + 1 := by omega
        simp only [List.getElem?_set, h1, h2, h3, if_false, if_true, List.length_set,
          List.length_append, List.length_singleton]
      · refine ⟨k'.parent, ?_⟩
        simp only [List.getElem?_set, h1, h2, hcc, if_false, getElem?_push2_lt _ _ hc, hk']

end PersistentRBTree

namespace PersistentRBTree
variable {α : Type}

theorem Reach.start {h : Heap α} {p : Option Nat} {t : VTree α} {f : List Nat}
    (o : Owns h p t f) (hf : f.Nodup) : Reach h f h p t :=
  ⟨⟨f, o, hf, fun _ hz => Or.inl hz⟩, le_refl _, Frame.same_heap _ _ _⟩

/-- Bookkeeping for address lists: a list that, below `N`, has no more occurrences
than a duplicate-free list and, from `N` on, at most one of each, is duplicate-free
and made of old and new addresses only. -/
theorem footprint_ok {f : List Nat} (f' : List Nat) {N : Nat} (hf : f.Nodup)
    (hc : ∀ z, z < N → f'.count z ≤ f.count z) (hN : ∀ z, N ≤ z → f'.count z ≤ 1) :
    f'.Nodup ∧ ∀ z ∈ f', z ∈ f ∨ N ≤ z := by
  constructor
  · rw [List.nodup_iff_count_le_one]
    intro z
    by_cases hz : z < N
    · exact le_trans (hc z hz) (List.nodup_iff_count_le_one.1 hf z)
    · exact hN z (by omega)
  · intro z hz
    by_cases hzN : z < N
    · left
      have h1 : 0 < f'.count z := List.count_pos_iff.2 hz
      exact List.count_pos_iff.1 (lt_of_lt_of_le h1 (hc z hzN))
    · right; omega

theorem count_eq_zero_of_lt {g : List Nat} {N z : Nat} (hg : ∀ y ∈ g, y < N) (hz : N ≤ z) :
    g.count z = 0 :=
  List.count_eq_zero_of_not_mem (fun hm => absurd (hg z hm) (by omega))

theorem rotateLeft_spec {h : Heap α} {a : Nat} {c c2 : Bool} {l rl rr : VTree α} {x y : α}
    {f : List Nat} (o : Owns h (some a) (VTree.node c l x (VTree.node c2 rl y rr)) f)
    (hf : f.Nodup) :
    ∃ H q, rotateLeft h (some a) = some (H, q) ∧
      Reach h f H q (VTree.node c (VTree.node true l x rl) y rr) := by
  obtain ⟨a', n, fl, fr, ha, rfl, hn, hc, hx, ol, or⟩ := o.inv_node
  cases ha
  obtain ⟨b, m, frl, frr, hb, rfl, hm, hc2, hy, orl, orr⟩ := or.inv_node
  have hnd := List.nodup_cons.1 hf
  have hcl : ∀ cl, m.left = some cl → cl ≠ a ∧ ∃ k, h[cl]? = some k := by
    intro cl hcl
    rw [hcl] at orl
    cases orl with
    | node hk _ _ =>
      refine ⟨?_, _, hk⟩
      rintro rfl
      exact hnd.1 (by simp)
  obtain ⟨H, hH, hlen, ⟨p1, e1⟩, ⟨p2, e2⟩, hpar⟩ := rotateLeft_run hn hb hm hcl
  have fr0 : Frame h.length [] h H := frame_of_parent hpar
  have keep : ∀ {p t g}, Owns h p t g → Owns H p t g := fun o' =>
    o'.frame fr0 (fun z hz => ⟨o'.lt z hz, List.not_mem_nil z⟩)
  refine ⟨H, _, hH, ⟨h.length :: (((h.length + 1) :: (fl ++ frl)) ++ frr), ?_, ?_, ?_⟩, by omega,
    fr0.weaken (le_refl _) (fun _ _ hc => absurd hc (List.not_mem_nil _))⟩
  · refine Owns.mk' e1 hc hy ?_ (keep orr)
    exact Owns.mk' e2 rfl hx (keep ol) (keep orl)
  · have hlt := o.lt
    have h1 : ∀ z ∈ fl ++ frl ++ frr, z < h.length := fun z hz => hlt z (by
      simp only [List.mem_cons, List.mem_append] at hz ⊢; tauto)
    have h2 : (fl ++ frl ++ frr).Nodup := by
      have := hnd.2
      rw [List.nodup_append] at this
      obtain ⟨n1, n2, n3⟩ := this
      rw [List.nodup_cons] at n2
      rw [List.append_assoc, List.nodup_append]
      refine ⟨n1, n2.2, ?_⟩
      intro z hz1 hz2
      exact n3 hz1 (List.mem_cons_of_mem _ hz2)
    simp only [List.cons_append, List.nodup_cons, List.mem_cons, List.mem_append, not_or]
    have h3 : ∀ z, z ∈ fl ∨ z ∈ frl ∨ z ∈ frr → z < h.length := fun z hz =>
      h1 z (by simp only [List.mem_append]; tauto)
    refine ⟨⟨by omega, ?_, ?_⟩, ?_, h2⟩
    · exact ⟨fun hz => absurd (h3 _ (Or.inl hz)) (by omega),
        fun hz => absurd (h3 _ (Or.inr (Or.inl hz))) (by omega)⟩
    · exact fun hz => absurd (h3 _ (Or.inr (Or.inr hz))) (by omega)
    · exact ⟨⟨fun hz => absurd (h3 _ (Or.inl hz)) (by omega),
        fun hz => absurd (h3 _ (Or.inr (Or.inl hz))) (by omega)⟩,
        fun hz => absurd (h3 _ (Or.inr (Or.inr hz))) (by omega)⟩
  · intro z hz
    simp only [List.cons_append, List.mem_cons, List.mem_append] at hz ⊢
    rcases hz with rfl | rfl | hz
    · right; exact le_refl _
    · right; omega
    · left; tauto

theorem rotateRight_spec {h : Heap α} {a : Nat} {c c2 : Bool} {ll lr r : VTree α} {x y : α}
    {f : List Nat} (o : Owns h (some a) (VTree.node c (VTree.node c2 ll y lr) x r) f)
    (hf : f.Nodup) :
    ∃ H q, rotateRight h (some a) = some (H, q) ∧
      Reach h f H q (VTree.node c ll y (VTree.node true lr x r)) := by
  obtain ⟨a', n, fl, fr, ha, rfl, hn, hc, hx, ol, or⟩ := o.inv_node
  cases ha
  obtain ⟨b, m, fll, flr, hb, rfl, hm, hc2, hy, oll, olr⟩ := ol.inv_node
  have hnd := List.nodup_cons.1 hf
  have hcl : ∀ cl, m.right = some cl → cl ≠ a ∧ ∃ k, h[cl]? = some k := by
    intro cl hcl
    rw [hcl] at olr
    cases olr with
    | node hk _ _ =>
      refine ⟨?_, _, hk⟩
      rintro rfl
      exact hnd.1 (by simp)
  obtain ⟨H, hH, hlen, ⟨p1, e1⟩, ⟨p2, e2⟩, hpar⟩ := rotateRight_run hn hb hm hcl
  have fr0 : Frame h.length [] h H := frame_of_parent hpar
  have keep : ∀ {p t g}, Owns h p t g → Owns H p t g := fun o' =>
    o'.frame fr0 (fun z hz => ⟨o'.lt z hz, List.not_mem_nil z⟩)
  have hlt := o.lt
  have h3 : ∀ g : List Nat, (∀ z ∈ g, z ∈ a :: (b :: (fll ++ flr) ++ fr)) →
      ∀ z, h.length ≤ z → g.count z = 0 :=
    fun g hg z hz => count_eq_zero_of_lt (fun y hy => hlt y (hg y hy)) hz
  obtain ⟨nd, sub⟩ := footprint_ok
    (h.length :: (fll ++ ((h.length + 1) :: (flr ++ fr)))) (N := h.length) hf
    (by
      intro z hz
      have e1 : ¬ h.length = z := by omega
      have e2 : ¬ h.length + 1 = z := by omega
      simp only [List.count_cons, List.count_append, List.cons_append, beq_iff_eq, e1, e2,
        if_false]
      omega)
    (by
      intro z hz
      have c1 := h3 fll (fun y hy => by simp [hy]) z hz
      have c2 := h3 flr (fun y hy => by simp [hy]) z hz
      have c3 := h3 fr (fun y hy => by simp [hy]) z hz
      simp only [List.count_cons, List.count_append, List.cons_append, beq_iff_eq, c1, c2, c3]
      split_ifs <;> omega)
  refine ⟨H, _, hH, ⟨_, ?_, nd, sub⟩, by omega,
    fr0.weaken (le_refl _) (fun _ _ hc => absurd hc (List.not_mem_nil _))⟩
  refine Owns.mk' e1 hc hy (keep oll) ?_
  exact Owns.mk' e2 rfl hx (keep olr) (keep or)

end PersistentRBTree

namespace PersistentRBTree
variable {α : Type}

theorem flipColors_eq (h : Heap α) (node : Option Nat) :
    flipColors h node = (deref h node).bind fun n =>
      (setIsRed h node (!n.isRed)).bind fun h1 =>
      (deref h1 node).bind fun n1 => (flipChild h1 n1.left).bind fun h2 =>
      (deref h2 node).bind fun n2 => (flipChild h2 n2.right).bind fun h3 => some h3 := rfl

theorem flipChild_spec {h : Heap α} {p : Option Nat} {t : VTree α} {f : List Nat}
    (o : Owns h p t f) (hf : f.Nodup) :
    ∃ H, flipChild h p = some H ∧
      Owns H p t.flipRoot f ∧ H.length = h.length ∧ (∀ c, c ∉ f → H[c]? = h[c]?) ∧
      ∀ N, Frame N f h H := by
  cases o with
  | nil => exact ⟨h, rfl, Owns.nil, rfl, fun _ _ => rfl, fun N => Frame.same_heap N _ h⟩
  | @node a n l r fl fr hn hl hr =>
    refine ⟨h.set a { n with isRed := !n.isRed }, ?_, ?_, by simp, ?_, ?_⟩
    · simp only [flipChild, Option.isSome_some, if_true, deref_some, hn, Option.some_bind,
        setIsRed_bind]
    · exact (Owns.node hn hl hr).repaint hf hn _
    · intro c hc
      rw [List.getElem?_set_ne]
      rintro rfl
      exact hc (List.mem_cons_self _ _)
    · intro N
      exact Frame.set_same hn ⟨rfl, rfl, rfl⟩ (fun hc => absurd (List.mem_cons_self _ _) hc)

theorem flipColors_spec {h : Heap α} {a : Nat} {c : Bool} {l r : VTree α} {x : α}
    {f : List Nat} (o : Owns h (some a) (VTree.node c l x r) f) (hf : f.Nodup) :
    ∃ H, flipColors h (some a) = some H ∧
      Reach h f H (some a) (VTree.node (!c) l.flipRoot x r.flipRoot) := by
  obtain ⟨a', n, fl, fr, ha, rfl, hn, hc, hx, ol, or⟩ := o.inv_node
  cases ha
  have hnd := List.nodup_cons.1 hf
  have hndl : fl.Nodup := (List.nodup_append.1 hnd.2).1
  have hndr : fr.Nodup := (List.nodup_append.1 hnd.2).2.1
  have hdis : ∀ z, z ∈ fl → z ∉ fr := fun z h1 h2 => (List.nodup_append.1 hnd.2).2.2 h1 h2
  have hal : a ∉ fl := fun hz => hnd.1 (List.mem_append_left _ hz)
  have har : a ∉ fr := fun hz => hnd.1 (List.mem_append_right _ hz)
  have hlt : a < h.length := (List.getElem?_eq_some_iff.1 hn).1
  -- first write
  have e1 : (h.set a { n with isRed := !n.isRed })[a]? = some { n with isRed := !n.isRed } := by
    simp [List.getElem?_set_self, hlt]
  have ol1 : Owns (h.set a { n with isRed := !n.isRed }) n.left l fl := ol.set_notin hal _
  have or1 : Owns (h.set a { n with isRed := !n.isRed }) n.right r fr := or.set_notin har _
  have f1 : Frame h.length (a :: (fl ++ fr)) h (h.set a { n with isRed := !n.isRed }) :=
    Frame.set_same hn ⟨rfl, rfl, rfl⟩ (fun hc => absurd (List.mem_cons_self _ _) hc)
  -- second write
  obtain ⟨H2, hH2, ol2, len2, same2, f2⟩ := flipChild_spec ol1 hndl
  have e2 : H2[a]? = some { n with isRed := !n.isRed } := (same2 a hal).trans e1
  have or2 : Owns H2 n.right r fr :=
    or1.congr (fun z hz k hk => ⟨k, (same2 z (fun hzl => hdis z hzl hz)).trans hk,
      ⟨rfl, rfl, rfl⟩, rfl⟩)
  -- third write
  obtain ⟨H3, hH3, or3, len3, same3, f3⟩ := flipChild_spec or2 hndr
  have e3 : H3[a]? = some { n with isRed := !n.isRed } := (same3 a har).trans e2
  have ol3 : Owns H3 n.left l.flipRoot fl :=
    ol2.congr (fun z hz k hk => ⟨k, (same3 z (hdis z hz)).trans hk, ⟨rfl, rfl, rfl⟩, rfl⟩)
  refine ⟨H3, ?_, ⟨_, Owns.mk' e3 (by simp [hc]) hx ol3 or3, hf, fun _ hz => Or.inl hz⟩,
    by simp [len3, len2], ?_⟩
  · rw [flipColors_eq]
    simp only [deref_some, hn, Option.some_bind, setIsRed_bind, e1, hH2, e2, hH3]
  · refine f1.trans (((f2 h.length).weaken (le_refl _) ?_).trans
      ((f3 h.length).weaken (le_refl _) ?_))
    · intro z _ hz; exact List.mem_cons_of_mem _ (List.mem_append_left _ hz)
    · intro z _ hz; exact List.mem_cons_of_mem _ (List.mem_append_right _ hz)

end PersistentRBTree

namespace PersistentRBTree
variable {α : Type}

theorem balance_steps (h : Heap α) (node : Option Nat) :
    balance h node = (balStep1 h node).bind fun s =>
      (balStep2 s.1 s.2).bind fun s => balStep3 s.1 s.2 := by
  unfold balance balStep1 balStep2 balStep3
  cases deref h node with
  | none => rfl
  | some n =>
    simp only [Option.bind_eq_bind, Option.some_bind, Option.bind_assoc]

end PersistentRBTree

namespace VTree
variable {α : Type}

theorem balance_rules (t : VTree α) : t.balance = bal3 (bal2 (bal1 t)) := rfl

end VTree

namespace PersistentRBTree
variable {α : Type}

theorem balStep1_spec {h : Heap α} {a : Nat} {c : Bool} {l r : VTree α} {x : α} {f : List Nat}
    (o : Owns h (some a) (VTree.node c l x r) f) (hf : f.Nodup) :
    ∃ H q, balStep1 h (some a) = some (H, q) ∧ Reach h f H q (VTree.node c l x r).bal1 := by
  obtain ⟨a', n, fl, fr, ha, rfl, hn, hc, hx, ol, or⟩ := o.inv_node
  cases ha
  simp only [balStep1, deref_some, hn, Option.some_bind, ol.isRed_eq, or.isRed_eq, VTree.bal1,
    VTree.left_node, VTree.right_node]
  by_cases hcond : (r.isRed && !l.isRed) = true
  · simp only [hcond, if_true]
    cases r with
    | nil => simp at hcond
    | node c2 rl y rr => exact rotateLeft_spec o hf
  · simp only [hcond, if_false]
    exact ⟨h, _, rfl, Reach.start o hf⟩

theorem balStep2_spec {h : Heap α} {a : Nat} {c : Bool} {l r : VTree α} {x : α} {f : List Nat}
    (o : Owns h (some a) (VTree.node c l x r) f) (hf : f.Nodup) :
    ∃ H q, balStep2 h (some a) = some (H, q) ∧ Reach h f H q (VTree.node c l x r).bal2 := by
  obtain ⟨a', n, fl, fr, ha, rfl, hn, hc, hx, ol, or⟩ := o.inv_node
  cases ha
  simp only [balStep2, deref_some, hn, Option.some_bind, ol.isRed_eq, VTree.bal2, VTree.left_node]
  cases l with
  | nil =>
    simp only [VTree.isRed_nil, Bool.false_eq_true, if_false, Option.some_bind, Bool.false_and]
    exact ⟨h, _, rfl, Reach.start o hf⟩
  | node c2 ll y lr =>
    obtain ⟨b, m, fll, flr, hb, rfl, hm, hc2, hy, oll, olr⟩ := ol.inv_node
    simp only [hb, deref_some, hm, Option.some_bind, oll.isRed_eq, VTree.isRed_node,
      VTree.left_node]
    by_cases hcond : (c2 && ll.isRed) = true
    · have h1 : c2 = true := by simp at hcond; exact hcond.1
      have h2 : ll.isRed = true := by simp at hcond; exact hcond.2
      simp only [h1, h2, if_true, Option.some_bind, Bool.and_self]
      subst h1
      exact rotateRight_spec o hf
    · have h3 : (if c2 = true then some ll.isRed else some false) = some false := by
        cases c2 <;> simp at hcond ⊢
        exact hcond
      simp only [h3, hcond, Option.some_bind, if_false, Bool.false_eq_true]
      exact ⟨h, _, rfl, Reach.start o hf⟩

theorem balStep3_spec {h : Heap α} {a : Nat} {c : Bool} {l r : VTree α} {x : α} {f : List Nat}
    (o : Owns h (some a) (VTree.node c l x r) f) (hf : f.Nodup) :
    ∃ H q, balStep3 h (some a) = some (H, q) ∧ Reach h f H q (VTree.node c l x r).bal3 := by
  obtain ⟨a', n, fl, fr, ha, rfl, hn, hc, hx, ol, or⟩ := o.inv_node
  cases ha
  simp only [balStep3, deref_some, hn, Option.some_bind, ol.isRed_eq, or.isRed_eq, VTree.bal3,
    VTree.left_node, VTree.right_node]
  by_cases hcond : (l.isRed && r.isRed) = true
  · simp only [hcond, if_true]
    obtain ⟨H, hH, hr⟩ := flipColors_spec o hf
    exact ⟨H, _, by rw [hH]; rfl, hr⟩
  · simp only [hcond, if_false, Option.some_bind]
    exact ⟨h, _, rfl, Reach.start o hf⟩

end PersistentRBTree

namespace VTree
variable {α : Type}

theorem IsNode.exists {t : VTree α} (ht : t.IsNode) : ∃ c l x r, t = node c l x r := by
  cases t with
  | nil => exact ht.elim
  | node c l x r => exact ⟨c, l, x, r, rfl⟩

theorem isNode_bal1 {t : VTree α} (ht : t.IsNode) : t.bal1.IsNode := by
  obtain ⟨c, l, x, r, rfl⟩ := ht.exists
  unfold bal1
  split
  · cases r with
    | nil => trivial
    | node _ _ _ _ => trivial
  · trivial

theorem isNode_bal2 {t : VTree α} (ht : t.IsNode) : t.bal2.IsNode := by
  obtain ⟨c, l, x, r, rfl⟩ := ht.exists
  unfold bal2
  split
  · cases l with
    | nil => trivial
    | node _ _ _ _ => trivial
  · trivial

theorem isNode_bal3 {t : VTree α} (ht : t.IsNode) : t.bal3.IsNode := by
  obtain ⟨c, l, x, r, rfl⟩ := ht.exists
  unfold bal3
  split <;> trivial

theorem isNode_balance {t : VTree α} (ht : t.IsNode) : t.balance.IsNode :=
  isNode_bal3 (isNode_bal2 (isNode_bal1 ht))

theorem isNode_insert [LinearOrder α] (t : VTree α) (k : α) : (t.insert k).IsNode := by
  cases t with
  | nil => trivial
  | node c l x r =>
    unfold insert
    split
    · exact isNode_balance trivial
    · split
      · exact isNode_balance trivial
      · trivial

end VTree

namespace PersistentRBTree
variable {α : Type}

theorem Reach.andThen {h H : Heap α} {f : List Nat} {q : Option Nat} {t u : VTree α}
    {P : Heap α → Option Nat → Prop} (r : Reach h f H q t)
    (k : ∀ f', Owns H q t f' → f'.Nodup →
      ∃ H2 q2, P H2 q2 ∧ Reach H f' H2 q2 u) :
    ∃ H2 q2, P H2 q2 ∧ Reach h f H2 q2 u := by
  obtain ⟨⟨f', o, hn, hs⟩, hl, hfr⟩ := r
  obtain ⟨H2, q2, hP, ⟨f2, o2, hn2, hs2⟩, hl2, hfr2⟩ := k f' o hn
  refine ⟨H2, q2, hP, ⟨f2, o2, hn2, ?_⟩, le_trans hl hl2, ?_⟩
  · intro z hz
    rcases hs2 z hz with hz | hz
    · exact hs z hz
    · exact Or.inr (le_trans hl hz)
  · refine hfr.trans (hfr2.weaken hl ?_)
    intro c hc hcf
    rcases hs c hcf with hz | hz
    · exact hz
    · omega

theorem Owns.some_of_isNode {h : Heap α} {p : Option Nat} {t : VTree α} {f : List Nat}
    (o : Owns h p t f) (ht : t.IsNode) : ∃ a c l x r, p = some a ∧ t = VTree.node c l x r := by
  cases o with
  | nil => exact ht.elim
  | node _ _ _ => exact ⟨_, _, _, _, _, rfl, rfl⟩

theorem balance_spec {h : Heap α} {p : Option Nat} {t : VTree α} {f : List Nat}
    (o : Owns h p t f) (hf : f.Nodup) (ht : t.IsNode) :
    ∃ H q, balance h p = some (H, q) ∧ Reach h f H q t.balance := by
  obtain ⟨a, c, l, x, r, rfl, rfl⟩ := o.some_of_isNode ht
  obtain ⟨H1, q1, e1, r1⟩ := balStep1_spec o hf
  rw [balance_steps, e1, VTree.balance_rules]
  simp only [Option.some_bind]
  refine r1.andThen (fun f1 o1 n1 => ?_)
  obtain ⟨a1, c1, l1, x1, r1', rfl, et1⟩ := o1.some_of_isNode (VTree.isNode_bal1 trivial)
  rw [et1] at o1 ⊢
  obtain ⟨H2, q2, e2, r2⟩ := balStep2_spec o1 n1
  rw [e2]
  simp only [Option.some_bind]
  refine r2.andThen (fun f2 o2 n2 => ?_)
  obtain ⟨a2, c2, l2, x2, r2', rfl, et2⟩ := o2.some_of_isNode (VTree.isNode_bal2 trivial)
  rw [et2] at o2 ⊢
  exact balStep3_spec o2 n2

theorem Owns.root_lookup {h : Heap α} {a : Nat} {t : VTree α} {f : List Nat}
    (o : Owns h (some a) t f) : ∃ k, h[a]? = some k ∧ a ∈ f := by
  cases o with
  | node hk _ _ => exact ⟨_, hk, List.mem_cons_self _ _⟩

theorem Owns.height_le {h : Heap α} {p : Option Nat} {t : VTree α} {f : List Nat}
    (o : Owns h p t f) : t.height ≤ f.length := by
  induction o with
  | nil => simp [VTree.height]
  | node _ _ _ ihl ihr =>
    simp only [VTree.height, List.length_cons, List.length_append]
    omega

theorem length_le_of_nodup {f : List Nat} {N : Nat} (hf : f.Nodup) (hlt : ∀ z ∈ f, z < N) :
    f.length ≤ N := by
  have hsub : f ⊆ List.range N := fun z hz => List.mem_range.2 (hlt z hz)
  have := (List.subperm_of_subset hf hsub).length_le
  simpa using this

theorem Owns.height_lt {h : Heap α} {p : Option Nat} {t : VTree α} {f : List Nat}
    (o : Owns h p t f) (hf : f.Nodup) : t.height < h.length + 1 :=
  Nat.lt_succ_of_le (le_trans o.height_le (length_le_of_nodup hf o.lt))

end PersistentRBTree

namespace PersistentRBTree
variable {α : Type} [LinearOrder α]

theorem insert_left_eq {fuel : Nat} {h : Heap α} {a : Nat} {n : Node α} {value : α}
    (hn : h[a]? = some n) (hlt : value < n.data) :
    insert (fuel + 1) h (some a) value =
      (insert fuel (h ++ [n]) n.left value).bind fun s =>
      (setLeft s.1 (some h.length) s.2).bind fun h3 =>
      (deref h3 (some h.length)).bind fun nn =>
      (setParent h3 nn.left (some h.length)).bind fun h4 => balance h4 (some h.length) := by
  have ha : a < h.length := (List.getElem?_eq_some_iff.1 hn).1
  simp only [insert, deref_some, hn, Option.bind_eq_bind, Option.some_bind, hlt, if_true, alloc,
    getElem?_push_lt _ ha]

theorem insert_right_eq {fuel : Nat} {h : Heap α} {a : Nat} {n : Node α} {value : α}
    (hn : h[a]? = some n) (hlt : ¬ value < n.data) (hgt : value > n.data) :
    insert (fuel + 1) h (some a) value =
      (insert fuel (h ++ [n]) n.right value).bind fun s =>
      (setRight s.1 (some h.length) s.2).bind fun h3 =>
      (deref h3 (some h.length)).bind fun nn =>
      (setParent h3 nn.right (some h.length)).bind fun h4 => balance h4 (some h.length) := by
  have ha : a < h.length := (List.getElem?_eq_some_iff.1 hn).1
  simp only [insert, deref_some, hn, Option.bind_eq_bind, Option.some_bind, hlt, hgt, if_true,
    if_false, alloc, getElem?_push_lt _ ha]

theorem insert_dup_eq {fuel : Nat} {h : Heap α} {a : Nat} {n : Node α} {value : α}
    (hn : h[a]? = some n) (hlt : ¬ value < n.data) (hgt : ¬ value > n.data) :
    insert (fuel + 1) h (some a) value = some (h, some a) := by
  simp only [insert, deref_some, hn, Option.bind_eq_bind, Option.some_bind, hlt, hgt, if_false]

theorem insert_none_eq (fuel : Nat) (h : Heap α) (value : α) :
    insert (fuel + 1) h none value = some (h ++ [Node.mk1 value], some h.length) := rfl

end PersistentRBTree

namespace PersistentRBTree
variable {α : Type}

/-- The two writes after the recursive call on the left, `newNode->left = res` and
`newNode->left->parent = newNode`, hang the new left subtree under the clone. -/
theorem link_left {h H2 : Heap α} {a : Nat} {n : Node α} {l l' r : VTree α}
    {fl fr : List Nat} {q2 : Option Nat} {β : Type}
    (hn : h[a]? = some n) (ol : Owns h n.left l fl) (or : Owns h n.right r fr)
    (hf : (a :: (fl ++ fr)).Nodup) (r2 : Reach (h ++ [n]) fl H2 q2 l') (hl' : l'.IsNode)
    (K : Heap α → Option β) :
    ∃ H4, ((setLeft H2 (some h.length) q2).bind fun h3 =>
        (deref h3 (some h.length)).bind fun nn =>
        (setParent h3 nn.left (some h.length)).bind K) = K H4 ∧
      Reach h (a :: (fl ++ fr)) H4 (some h.length) (VTree.node n.isRed l' n.data r) := by
  obtain ⟨⟨f2, o2, nd2, sub2⟩, len2, frame2⟩ := r2
  obtain ⟨b, c', l2, x2, r2', rfl, el'⟩ := o2.some_of_isNode hl'
  have hnd := List.nodup_cons.1 hf
  have hdis : ∀ z, z ∈ fl → z ∉ fr := fun z h1 h2 => (List.nodup_append.1 hnd.2).2.2 h1 h2
  have hltl := ol.lt
  have hltr := or.lt
  have ha : a < h.length := (List.getElem?_eq_some_iff.1 hn).1
  simp only [List.length_append, List.length_singleton] at sub2 len2 frame2
  -- the clone after the recursive call
  obtain ⟨n', hn', ⟨hd, hl, hr⟩, hcol⟩ := frame2 h.length (by omega) n (getElem?_push_eq h n)
  have hcol' : n'.isRed = n.isRed := hcol (fun hz => absurd (hltl _ hz) (by omega))
  have hlen_lt : h.length < H2.length := by omega
  -- the root of the new subtree
  obtain ⟨kb, hkb⟩ : ∃ kb, H2[b]? = some kb := by
    cases o2 with
    | node hk _ _ => exact ⟨_, hk⟩
  have hb_mem : b ∈ f2 := by
    cases o2 with
    | node _ _ _ => exact List.mem_cons_self _ _
  have hb_ne : b ≠ h.length := by
    rcases sub2 b hb_mem with hz | hz
    · have := hltl b hz; omega
    · omega
  have hlen_notin : h.length ∉ f2 := by
    intro hz
    rcases sub2 _ hz with hz | hz
    · have := hltl _ hz; omega
    · omega
  have hb_lt : b < H2.length := (List.getElem?_eq_some_iff.1 hkb).1
  refine ⟨(H2.set h.length { n' with left := some b }).set b { kb with parent := some h.length },
    ?_, ⟨h.length :: (f2 ++ fr), ?_, ?_, ?_⟩, ?_, ?_⟩
  · simp only [setLeft_bind, hn', Option.some_bind, deref_some, List.getElem?_set_self hlen_lt,
      setParent_bind, List.getElem?_set_ne hb_ne.symm, hkb]
  · have e1 : ((H2.set h.length { n' with left := some b }).set b
        { kb with parent := some h.length })[h.length]? = some { n' with left := some b } := by
      rw [List.getElem?_set_ne hb_ne, List.getElem?_set_self hlen_lt]
    have e2 : (H2.set h.length { n' with left := some b })[b]? = some kb := by
      rw [List.getElem?_set_ne hb_ne.symm]; exact hkb
    refine Owns.mk' e1 hcol' hd ?_ ?_
    · exact (o2.set_notin hlen_notin _).set_keep e2 ⟨rfl, rfl, rfl⟩ rfl
    · have or1 : Owns H2 n'.right r fr := by
        rw [hr]
        exact (or.alloc n).frame frame2 (fun z hz => ⟨by have := hltr z hz; omega,
          fun hzl => hdis z hzl hz⟩)
      exact (or1.set_notin (fun hz => absurd (hltr _ hz) (by omega)) _).set_keep e2
        ⟨rfl, rfl, rfl⟩ rfl
  · rw [List.nodup_cons, List.nodup_append]
    refine ⟨?_, nd2, (List.nodup_append.1 hnd.2).2.1, ?_⟩
    · rw [List.mem_append]
      rintro (hz | hz)
      · exact hlen_notin hz
      · have := hltr _ hz; omega
    · intro z hz1 hz2
      rcases sub2 z hz1 with hz | hz
      · exact hdis z hz hz2
      · have := hltr z hz2; omega
  · intro z hz
    rcases List.mem_cons.1 hz with rfl | hz
    · right; exact le_refl _
    · rcases List.mem_append.1 hz with hz | hz
      · rcases sub2 z hz with hz | hz
        · left; exact List.mem_cons_of_mem _ (List.mem_append_left _ hz)
        · right; omega
      · left; exact List.mem_cons_of_mem _ (List.mem_append_right _ hz)
  · simp only [List.length_set]; omega
  · have fA : Frame h.length (a :: (fl ++ fr)) h (h ++ [n]) := Frame.push _ _ _ _
    have fB : Frame h.length (a :: (fl ++ fr)) (h ++ [n]) H2 :=
      frame2.weaken (by omega)
        (fun z _ hz => List.mem_cons_of_mem _ (List.mem_append_left _ hz))
    have fC : Frame h.length (a :: (fl ++ fr)) H2 (H2.set h.length { n' with left := some b }) :=
      Frame.set_new _ _ _ (le_refl _)
    have fD : Frame h.length (a :: (fl ++ fr)) (H2.set h.length { n' with left := some b })
        ((H2.set h.length { n' with left := some b }).set b { kb with parent := some h.length }) :=
      Frame.set_same (n := kb) (by rw [List.getElem?_set_ne hb_ne.symm]; exact hkb)
        ⟨rfl, rfl, rfl⟩ (fun _ => rfl)
    exact fA.trans (fB.trans (fC.trans fD))

/-- The two writes after the recursive call on the right, `newNode->right = res` and
`newNode->right->parent = newNode`, hang the new right subtree under the clone. -/
theorem link_right {h H2 : Heap α} {a : Nat} {n : Node α} {l r r' : VTree α}
    {fl fr : List Nat} {q2 : Option Nat} {β : Type}
    (hn : h[a]? = some n) (ol : Owns h n.left l fl) (or : Owns h n.right r fr)
    (hf : (a :: (fl ++ fr)).Nodup) (r2 : Reach (h ++ [n]) fr H2 q2 r') (hl' : r'.IsNode)
    (K : Heap α → Option β) :
    ∃ H4, ((setRight H2 (some h.length) q2).bind fun h3 =>
        (deref h3 (some h.length)).bind fun nn =>
        (setParent h3 nn.right (some h.length)).bind K) = K H4 ∧
      Reach h (a :: (fl ++ fr)) H4 (some h.length) (VTree.node n.isRed l n.data r') := by
  obtain ⟨⟨f2, o2, nd2, sub2⟩, len2, frame2⟩ := r2
  obtain ⟨b, c', l2, x2, r2', rfl, el'⟩ := o2.some_of_isNode hl'
  have hnd := List.nodup_cons.1 hf
  have hdis : ∀ z, z ∈ fl → z ∉ fr := fun z h1 h2 => (List.nodup_append.1 hnd.2).2.2 h1 h2
  have hltl := ol.lt
  have hltr := or.lt
  have ha : a < h.length := (List.getElem?_eq_some_iff.1 hn).1
  simp only [List.length_append, List.length_singleton] at sub2 len2 frame2
  -- the clone after the recursive call
  obtain ⟨n', hn', ⟨hd, hl, hr⟩, hcol⟩ := frame2 h.length (by omega) n (getElem?_push_eq h n)
  have hcol' : n'.isRed = n.isRed := hcol (fun hz => absurd (hltr _ hz) (by omega))
  have hlen_lt : h.length < H2.length := by omega
  -- the root of the new subtree
  obtain ⟨kb, hkb⟩ : ∃ kb, H2[b]? = some kb := by
    cases o2 with
    | node hk _ _ => exact ⟨_, hk⟩
  have hb_mem : b ∈ f2 := by
    cases o2 with
    | node _ _ _ => exact List.mem_cons_self _ _
  have hb_ne : b ≠ h.length := by
    rcases sub2 b hb_mem with hz | hz
    · have := hltr b hz; omega
    · omega
  have hlen_notin : h.length ∉ f2 := by
    intro hz
    rcases sub2 _ hz with hz | hz
    · have := hltr _ hz; omega
    · omega
  have hb_lt : b < H2.length := (List.getElem?_eq_some_iff.1 hkb).1
  refine ⟨(H2.set h.length { n' with right := some b }).set b { kb with parent := some h.length },
    ?_, ⟨h.length :: (fl ++ f2), ?_, ?_, ?_⟩, ?_, ?_⟩
  · simp only [setRight_bind, hn', Option.some_bind, deref_some, List.getElem?_set_self hlen_lt,
      setParent_bind, List.getElem?_set_ne hb_ne.symm, hkb]
  · have e1 : ((H2.set h.length { n' with right := some b }).set b
        { kb with parent := some h.length })[h.length]? = some { n' with right := some b } := by
      rw [List.getElem?_set_ne hb_ne, List.getElem?_set_self hlen_lt]
    have e2 : (H2.set h.length { n' with right := some b })[b]? = some kb := by
      rw [List.getElem?_set_ne hb_ne.symm]; exact hkb
    refine Owns.mk' e1 hcol' hd ?_ ?_
    · have ol1 : Owns H2 n'.left l fl := by
        rw [hl]
        exact (ol.alloc n).frame frame2 (fun z hz => ⟨by have := hltl z hz; omega,
          fun hzr => hdis z hz hzr⟩)
      exact (ol1.set_notin (fun hz => absurd (hltl _ hz) (by omega)) _).set_keep e2
        ⟨rfl, rfl, rfl⟩ rfl
    · exact (o2.set_notin hlen_notin _).set_keep e2 ⟨rfl, rfl, rfl⟩ rfl
  · rw [List.nodup_cons, List.nodup_append]
    refine ⟨?_, (List.nodup_append.1 hnd.2).1, nd2, ?_⟩
    · rw [List.mem_append]
      rintro (hz | hz)
      · have := hltl _ hz; omega
      · exact hlen_notin hz
    · intro z hz1 hz2
      rcases sub2 z hz2 with hz | hz
      · exact hdis z hz1 hz
      · have := hltl z hz1; omega
  · intro z hz
    rcases List.mem_cons.1 hz with rfl | hz
    · right; exact le_refl _
    · rcases List.mem_append.1 hz with hz | hz
      · left; exact List.mem_cons_of_mem _ (List.mem_append_left _ hz)
      · rcases sub2 z hz with hz | hz
        · left; exact List.mem_cons_of_mem _ (List.mem_append_right _ hz)
        · right; omega
  · simp only [List.length_set]; omega
  · have fA : Frame h.length (a :: (fl ++ fr)) h (h ++ [n]) := Frame.push _ _ _ _
    have fB : Frame h.length (a :: (fl ++ fr)) (h ++ [n]) H2 :=
      frame2.weaken (by omega)
        (fun z _ hz => List.mem_cons_of_mem _ (List.mem_append_right _ hz))
    have fC : Frame h.length (a :: (fl ++ fr)) H2 (H2.set h.length { n' with right := some b }) :=
      Frame.set_new _ _ _ (le_refl _)
    have fD : Frame h.length (a :: (fl ++ fr)) (H2.set h.length { n' with right := some b })
        ((H2.set h.length { n' with right := some b }).set b { kb with parent := some h.length }) :=
      Frame.set_same (n := kb) (by rw [List.getElem?_set_ne hb_ne.symm]; exact hkb)
        ⟨rfl, rfl, rfl⟩ (fun _ => rfl)
    exact fA.trans (fB.trans (fC.trans fD))

end PersistentRBTree

namespace PersistentRBTree
variable {α : Type} [LinearOrder α]

/-- The store-level `insert` builds the tree computed by `VTree.insert`, given more
fuel than the tree is high. -/
theorem insert_spec (value : α) : ∀ (t : VTree α) (fuel : Nat) (h : Heap α) (p : Option Nat)
    (f : List Nat), Owns h p t f → f.Nodup → t.height < fuel →
    ∃ H q, insert fuel h p value = some (H, q) ∧ Reach h f H q (t.insert value) := by
  intro t
  induction t with
  | nil =>
    intro fuel h p f o hf hfuel
    obtain ⟨rfl, rfl⟩ := o.inv_nil
    obtain ⟨fuel, rfl⟩ : ∃ k, fuel = k + 1 := ⟨fuel - 1, by simp [VTree.height] at hfuel; omega⟩
    refine ⟨_, _, insert_none_eq fuel h value, ⟨[h.length], ?_, by simp, by simp⟩, by simp,
      Frame.push _ _ _ _⟩
    exact Owns.mk' (n := Node.mk1 value) (getElem?_push_eq h _) rfl rfl Owns.nil Owns.nil
  | node c l x r ihl ihr =>
    intro fuel h p f o hf hfuel
    obtain ⟨a, n, fl, fr, rfl, rfl, hn, hc, hx, ol, or⟩ := o.inv_node
    obtain ⟨fuel, rfl⟩ : ∃ k, fuel = k + 1 := ⟨fuel - 1, by simp [VTree.height] at hfuel; omega⟩
    have hhl : l.height < fuel := by simp [VTree.height] at hfuel; omega
    have hhr : r.height < fuel := by simp [VTree.height] at hfuel; omega
    have hnd := List.nodup_cons.1 hf
    subst hc; subst hx
    by_cases hlt : value < n.data
    · obtain ⟨H2, q2, e2, r2⟩ := ihl fuel (h ++ [n]) n.left fl (ol.alloc n)
        (List.nodup_append.1 hnd.2).1 hhl
      obtain ⟨H4, e4, r4⟩ := link_left hn ol or hf r2 (VTree.isNode_insert l value)
        (fun h4 => balance h4 (some h.length))
      rw [insert_left_eq hn hlt, e2]
      simp only [Option.some_bind]
      rw [e4]
      simp only [VTree.insert, hlt, if_true]
      exact r4.andThen (fun f' o' n' => balance_spec o' n' trivial)
    · by_cases hgt : value > n.data
      · obtain ⟨H2, q2, e2, r2⟩ := ihr fuel (h ++ [n]) n.right fr (or.alloc n)
          (List.nodup_append.1 hnd.2).2.1 hhr
        obtain ⟨H4, e4, r4⟩ := link_right hn ol or hf r2 (VTree.isNode_insert r value)
          (fun h4 => balance h4 (some h.length))
        rw [insert_right_eq hn hlt hgt, e2]
        simp only [Option.some_bind]
        rw [e4]
        simp only [VTree.insert, hlt, hgt, if_true, if_false]
        exact r4.andThen (fun f' o' n' => balance_spec o' n' trivial)
      · rw [insert_dup_eq hn hlt hgt]
        simp only [VTree.insert, hlt, hgt, if_false]
        exact ⟨h, _, rfl, Reach.start (Owns.node hn ol or) hf⟩

/-- The store-level `add` publishes the tree computed by `VTree.add`. -/
theorem add_spec {h : Heap α} {v : PersistentRBTree} {t : VTree α} {f : List Nat}
    (o : Owns h v.root t f) (hf : f.Nodup) (value : α) :
    ∃ H v', add h v value = some (H, v') ∧ Reach h f H v'.root (t.add value) := by
  obtain ⟨H1, q1, e1, r1⟩ := insert_spec value t (h.length + 1) h v.root f o hf (o.height_lt hf)
  simp only [add, e1, Option.bind_eq_bind, Option.some_bind]
  have key := r1.andThen (P := fun H2 q2 => setIsRed H1 q1 false = some H2 ∧ q2 = q1)
    (u := t.add value) (fun f1 o1 n1 => by
      obtain ⟨a, c, l, x, r, rfl, et⟩ := o1.some_of_isNode (VTree.isNode_insert t value)
      obtain ⟨k, hk, hmem⟩ := o1.root_lookup
      refine ⟨_, _, ⟨by rw [setIsRed_bind, hk]; rfl, rfl⟩, ⟨f1, o1.repaint n1 hk false, n1,
        fun _ hz => Or.inl hz⟩, by simp, ?_⟩
      exact Frame.set_same hk ⟨rfl, rfl, rfl⟩ (fun hc => absurd hmem hc))
  obtain ⟨H2, q2, ⟨eH, rfl⟩, r2⟩ := key
  exact ⟨H2, ⟨q2⟩, by rw [eH]; rfl, r2⟩

end PersistentRBTree

namespace PersistentRBTree
variable {α : Type}

theorem readTree_of_owns {h : Heap α} {p : Option Nat} {t : VTree α} {f : List Nat}
    (o : Owns h p t f) : ∀ fuel, t.height < fuel → readTree fuel h p = some t := by
  induction o with
  | nil =>
    intro fuel hfuel
    obtain ⟨fuel, rfl⟩ : ∃ k, fuel = k + 1 := ⟨fuel - 1, by omega⟩
    rfl
  | node hn _ _ ihl ihr =>
    intro fuel hfuel
    obtain ⟨fuel, rfl⟩ : ∃ k, fuel = k + 1 := ⟨fuel - 1, by omega⟩
    simp only [VTree.height] at hfuel
    simp only [readTree, deref_some, hn, Option.bind_eq_bind, Option.some_bind,
      ihl fuel (by omega), ihr fuel (by omega)]

/-- Traversal reads keys and child pointers only: any heap that kept those for the
nodes of a tree yields the in-order keys of that tree. -/
theorem inOrderTraversal_of_frame [LinearOrder α] {h H : Heap α} {p : Option Nat} {t : VTree α}
    {f g : List Nat} {N : Nat} (o : Owns h p t f) (fr : Frame N g h H) (hN : ∀ z ∈ f, z < N) :
    ∀ fuel, t.height < fuel → inOrderTraversal fuel H p = some t.inOrder := by
  induction o with
  | nil =>
    intro fuel hfuel
    obtain ⟨fuel, rfl⟩ : ∃ k, fuel = k + 1 := ⟨fuel - 1, by omega⟩
    rfl
  | @node a n l r fl fr' hn _ _ ihl ihr =>
    intro fuel hfuel
    obtain ⟨fuel, rfl⟩ : ∃ k, fuel = k + 1 := ⟨fuel - 1, by omega⟩
    simp only [VTree.height] at hfuel
    obtain ⟨n', hn', ⟨hd, hl, hr⟩, _⟩ := fr a (hN a (List.mem_cons_self _ _)) n hn
    have il := ihl (fun z hz => hN z (List.mem_cons_of_mem _ (List.mem_append_left _ hz)))
      fuel (by omega)
    have ir := ihr (fun z hz => hN z (List.mem_cons_of_mem _ (List.mem_append_right _ hz)))
      fuel (by omega)
    simp only [inOrderTraversal, deref_some, hn', Option.bind_eq_bind, Option.some_bind, hl, hr,
      il, ir, hd, VTree.inOrder]

/-- Under the frame condition an older tree keeps its nodes, keys and shape; only
colours may differ. -/
theorem Owns.survive {h H : Heap α} {p : Option Nat} {t : VTree α} {f g : List Nat} {N : Nat}
    (o : Owns h p t f) (fr : Frame N g h H) (hN : ∀ z ∈ f, z < N) :
    ∃ t', Owns H p t' f ∧ t'.inOrder = t.inOrder := by
  induction o with
  | nil => exact ⟨VTree.nil, Owns.nil, rfl⟩
  | @node a n l r fl fr' hn _ _ ihl ihr =>
    obtain ⟨n', hn', ⟨hd, hl, hr⟩, _⟩ := fr a (hN a (List.mem_cons_self _ _)) n hn
    obtain ⟨l', ol', el⟩ :=
      ihl (fun z hz => hN z (List.mem_cons_of_mem _ (List.mem_append_left _ hz)))
    obtain ⟨r', or', er⟩ :=
      ihr (fun z hz => hN z (List.mem_cons_of_mem _ (List.mem_append_right _ hz)))
    refine ⟨VTree.node n'.isRed l' n.data r', Owns.mk' hn' rfl hd (hl ▸ ol') (hr ▸ or'), ?_⟩
    simp only [VTree.inOrder, el, er]

theorem inOrderTraversal_of_owns [LinearOrder α] {h : Heap α} {p : Option Nat} {t : VTree α}
    {f : List Nat} (o : Owns h p t f) (fuel : Nat) (hfuel : t.height < fuel) :
    inOrderTraversal fuel h p = some t.inOrder :=
  inOrderTraversal_of_frame o (Frame.same_heap h.length [] h) o.lt fuel hfuel

theorem toTree_of_owns {h : Heap α} {v : PersistentRBTree} {t : VTree α} {f : List Nat}
    (o : Owns h v.root t f) (hf : f.Nodup) : toTree h v = some t :=
  readTree_of_owns o _ (o.height_lt hf)

theorem getSortedElements_of_owns [LinearOrder α] {h : Heap α} {v : PersistentRBTree}
    {t : VTree α} {f : List Nat} (o : Owns h v.root t f) (hf : f.Nodup) :
    getSortedElements h v = some t.inOrder :=
  inOrderTraversal_of_owns o _ (o.height_lt hf)

/-- The driver loop publishes the fold of `VTree.add`. -/
theorem addAll_spec [LinearOrder α] (keys : List α) : ∀ (h : Heap α) (v : PersistentRBTree)
    (t : VTree α) (f : List Nat), Owns h v.root t f → f.Nodup →
    ∃ H v' f', addAll h v keys = some (H, v') ∧
      Owns H v'.root (keys.foldl VTree.add t) f' ∧ f'.Nodup := by
  induction keys with
  | nil => intro h v t f o hf; exact ⟨h, v, f, rfl, o, hf⟩
  | cons k ks ih =>
    intro h v t f o hf
    obtain ⟨H1, v1, e1, ⟨f1, o1, n1, _⟩, _, _⟩ := add_spec o hf k
    obtain ⟨H2, v2, f2, e2, o2, n2⟩ := ih H1 v1 (t.add k) f1 o1 n1
    exact ⟨H2, v2, f2, by simp only [addAll, e1, Option.bind_eq_bind, Option.some_bind, e2],
      o2, n2⟩

theorem build_spec [LinearOrder α] (keys : List α) :
    ∃ H v f, build keys = some (H, v) ∧
      Owns H v.root (keys.foldl VTree.add VTree.nil) f ∧ f.Nodup :=
  addAll_spec keys [] empty VTree.nil [] Owns.nil List.nodup_nil

end PersistentRBTree

namespace VTree
variable {α : Type}

@[simp] theorem inOrder_nil : (nil : VTree α).inOrder = [] := rfl
@[simp] theorem inOrder_node (c : Bool) (l : VTree α) (x : α) (r : VTree α) :
    (node c l x r).inOrder = l.inOrder ++ [x] ++ r.inOrder := rfl

@[simp] theorem inOrder_paint (c : Bool) (t : VTree α) : (t.paint c).inOrder = t.inOrder := by
  cases t <;> rfl

@[simp] theorem inOrder_flipRoot (t : VTree α) : t.flipRoot.inOrder = t.inOrder :=
  inOrder_paint _ t

@[simp] theorem inOrder_blacken (t : VTree α) : t.blacken.inOrder = t.inOrder :=
  inOrder_paint _ t

@[simp] theorem inOrder_rotateLeft (t : VTree α) : t.rotateLeft.inOrder = t.inOrder := by
  cases t with
  | nil => rfl
  | node c l x r =>
    cases r with
    | nil => rfl
    | node c2 rl y rr => simp [rotateLeft]

@[simp] theorem inOrder_rotateRight (t : VTree α) : t.rotateRight.inOrder = t.inOrder := by
  cases t with
  | nil => rfl
  | node c l x r =>
    cases l with
    | nil => rfl
    | node c2 ll y lr => simp [rotateRight]

@[simp] theorem inOrder_flipColors (t : VTree α) : t.flipColors.inOrder = t.inOrder := by
  cases t with
  | nil => rfl
  | node c l x r => simp [flipColors]

@[simp] theorem inOrder_balance (t : VTree α) : t.balance.inOrder = t.inOrder := by
  simp only [balance]
  split_ifs <;> simp

variable [LinearOrder α]

theorem sorted_node_iff {L R : List α} {x : α} :
    (L ++ [x] ++ R).Sorted (· < ·) ↔
      L.Sorted (· < ·) ∧ R.Sorted (· < ·) ∧ (∀ y ∈ L, y < x) ∧ (∀ y ∈ R, x < y) := by
  simp only [List.Sorted, List.pairwise_append, List.pairwise_cons, List.mem_append,
    List.mem_singleton, List.not_mem_nil, List.Pairwise.nil]
  constructor
  · rintro ⟨⟨hL, _, hLx⟩, hR, hall⟩
    exact ⟨hL, hR, fun y hy => hLx y hy x rfl, fun y hy => hall x (Or.inr rfl) y hy⟩
  · rintro ⟨hL, hR, hLx, hxR⟩
    refine ⟨⟨hL, ⟨fun _ h => h.elim, trivial⟩, fun y hy z hz => hz ▸ hLx y hy⟩, hR, ?_⟩
    rintro y (hy | rfl) z hz
    · exact lt_trans (hLx y hy) (hxR z hz)
    · exact hxR z hz

/-- Inserting a key that is not in the tree puts it at its ordered position in the
key sequence and changes nothing else. -/
theorem inOrder_insert_new (k : α) : ∀ (t : VTree α), t.Ordered → k ∉ t.inOrder →
    ∃ pre post, t.inOrder = pre ++ post ∧ (t.insert k).inOrder = pre ++ k :: post ∧
      (∀ y ∈ pre, y < k) ∧ (∀ y ∈ post, k < y) := by
  intro t
  induction t with
  | nil => intro _ _; exact ⟨[], [], rfl, rfl, by simp, by simp⟩
  | node c l x r ihl ihr =>
    intro ho hk
    obtain ⟨hL, hR, hLx, hxR⟩ := sorted_node_iff.1 ho
    simp only [inOrder_node, List.mem_append, List.mem_singleton, not_or] at hk
    obtain ⟨⟨hkl, hkx⟩, hkr⟩ := hk
    rcases lt_trichotomy k x with hlt | heq | hgt
    · obtain ⟨pre, post, e1, e2, h1, h2⟩ := ihl hL hkl
      refine ⟨pre, post ++ [x] ++ r.inOrder, ?_, ?_, h1, ?_⟩
      · simp [e1]
      · simp [insert, hlt, e2]
      · intro y hy
        simp only [List.mem_append, List.mem_singleton] at hy
        rcases hy with (hy | rfl) | hy
        · exact h2 y hy
        · exact hlt
        · exact lt_trans hlt (hxR y hy)
    · exact absurd heq hkx
    · obtain ⟨pre, post, e1, e2, h1, h2⟩ := ihr hR hkr
      refine ⟨l.inOrder ++ [x] ++ pre, post, ?_, ?_, ?_, h2⟩
      · simp [e1]
      · simp [insert, not_lt_of_gt hgt, hgt, e2]
      · intro y hy
        simp only [List.mem_append, List.mem_singleton] at hy
        rcases hy with (hy | rfl) | hy
        · exact lt_trans (hLx y hy) hgt
        · exact hgt
        · exact h1 y hy

/-- Inserting a key that is already in the tree leaves the key sequence alone. -/
theorem inOrder_insert_dup (k : α) : ∀ (t : VTree α), t.Ordered → k ∈ t.inOrder →
    (t.insert k).inOrder = t.inOrder := by
  intro t
  induction t with
  | nil => intro _ hk; cases hk
  | node c l x r ihl ihr =>
    intro ho hk
    obtain ⟨hL, hR, hLx, hxR⟩ := sorted_node_iff.1 ho
    simp only [inOrder_node, List.mem_append, List.mem_singleton] at hk
    rcases lt_trichotomy k x with hlt | heq | hgt
    · have hkl : k ∈ l.inOrder := by
        rcases hk with (hk | hk) | hk
        · exact hk
        · exact absurd hk (ne_of_lt hlt)
        · exact absurd (hxR k hk) (not_lt_of_gt hlt)
      simp [insert, hlt, ihl hL hkl]
    · subst heq; simp [insert]
    · have hkr : k ∈ r.inOrder := by
        rcases hk with (hk | hk) | hk
        · exact absurd (hLx k hk) (not_lt_of_gt hgt)
        · exact absurd hk (ne_of_gt hgt)
        · exact hk
      simp [insert, not_lt_of_gt hgt, hgt, ihr hR hkr]

theorem mem_inOrder_insert (k : α) (t : VTree α) (ho : t.Ordered) (y : α) :
    y ∈ (t.insert k).inOrder ↔ y = k ∨ y ∈ t.inOrder := by
  by_cases hk : k ∈ t.inOrder
  · rw [inOrder_insert_dup k t ho hk]
    constructor
    · exact Or.inr
    · rintro (rfl | h)
      · exact hk
      · exact h
  · obtain ⟨pre, post, e1, e2, _, _⟩ := inOrder_insert_new k t ho hk
    rw [e1, e2]
    simp only [List.mem_append, List.mem_cons]
    tauto

theorem ordered_insert (k : α) (t : VTree α) (ho : t.Ordered) : (t.insert k).Ordered := by
  by_cases hk : k ∈ t.inOrder
  · unfold Ordered; rw [inOrder_insert_dup k t ho hk]; exact ho
  · obtain ⟨pre, post, e1, e2, h1, h2⟩ := inOrder_insert_new k t ho hk
    unfold Ordered at ho ⊢
    rw [e1] at ho
    rw [e2]
    have := List.pairwise_append.1 ho
    have e3 : pre ++ k :: post = pre ++ [k] ++ post := by simp
    rw [e3]
    exact sorted_node_iff.2 ⟨this.1, this.2.1, h1, h2⟩

theorem ordered_add (k : α) (t : VTree α) (ho : t.Ordered) : (t.add k).Ordered := by
  unfold Ordered add; rw [inOrder_blacken]; exact ordered_insert k t ho

theorem mem_inOrder_add (k : α) (t : VTree α) (ho : t.Ordered) (y : α) :
    y ∈ (t.add k).inOrder ↔ y = k ∨ y ∈ t.inOrder := by
  unfold add; rw [inOrder_blacken]; exact mem_inOrder_insert k t ho y

theorem ordered_foldl_add (keys : List α) : ∀ (t : VTree α), t.Ordered →
    (keys.foldl VTree.add t).Ordered := by
  induction keys with
  | nil => intro t ho; exact ho
  | cons k ks ih => intro t ho; exact ih _ (ordered_add k t ho)

theorem mem_foldl_add (keys : List α) : ∀ (t : VTree α), t.Ordered → ∀ y,
    y ∈ (keys.foldl VTree.add t).inOrder ↔ y ∈ keys ∨ y ∈ t.inOrder := by
  induction keys with
  | nil => intro t _ y; simp
  | cons k ks ih =>
    intro t ho y
    rw [List.foldl_cons, ih _ (ordered_add k t ho), mem_inOrder_add k t ho]
    simp only [List.mem_cons]
    tauto

theorem ordered_nil : (nil : VTree α).Ordered := List.sorted_nil

end VTree

namespace VTree
variable {α : Type}

theorem Bal.colour {t : VTree α} {c : Bool} {n : Nat} (b : Bal t c n) : t.isRed = c := by
  cases b <;> rfl

theorem Bal.left_not_redRed {l : VTree α} {c : Bool} {n : Nat} (hl : Bal l c n) :
    (l.isRed && l.left.isRed) = false := by
  cases hl with
  | nil => rfl
  | red a _ => simp [a.colour]
  | black _ _ => rfl

/-- A node whose right child is well shaped with a BLACK root and whose left child is
well shaped is left alone by `balance`, whatever its own colour. -/
theorem balance_eq_of_bal (c : Bool) (x : α) {l r : VTree α} {cl : Bool} {n m : Nat}
    (hl : Bal l cl n) (hr : Bal r false m) : (node c l x r).balance = node c l x r := by
  simp only [balance, right_node, left_node, hr.colour, hl.left_not_redRed, Bool.false_and,
    Bool.and_false, Bool.false_eq_true, if_false]

/-- On a well-shaped node `balance` finds nothing to do. -/
theorem Bal.balance_id {t : VTree α} {c : Bool} {n : Nat} (b : Bal t c n) : t.balance = t := by
  cases b with
  | nil => rfl
  | red hl hr =>
    simp only [balance, right_node, left_node, hr.colour, hl.colour, Bool.false_and,
      Bool.and_false, Bool.false_eq_true, if_false]
  | black hl hr =>
    have h1 : ∀ {l : VTree α} {c n}, Bal l c n → (l.isRed && l.left.isRed) = false := by
      intro l c n hl
      cases hl with
      | nil => rfl
      | red a _ => simp [a.colour]
      | black _ _ => rfl
    simp only [balance, right_node, left_node, hr.colour, h1 hl, Bool.false_and,
      Bool.and_false, Bool.false_eq_true, if_false]

theorem Bal.paint_black {t : VTree α} {n : Nat} (b : Bal t true n) :
    Bal (t.paint false) false (n + 1) := by
  cases b with
  | red hl hr => exact Bal.black hl hr

variable [LinearOrder α]

/-- Shape after `insert`: below a BLACK root the result is well shaped (its root may
have turned RED); below a RED root it is well shaped or has the red-red defect. -/
theorem Bal.insert_shape (k : α) {t : VTree α} {c : Bool} {n : Nat} (b : Bal t c n) :
    (c = false → ∃ c', Bal (t.insert k) c' n) ∧
    (c = true → Bal (t.insert k) true n ∨ RedRed (t.insert k) n) := by
  induction b with
  | nil =>
    constructor
    · intro _
      exact ⟨true, Bal.red Bal.nil Bal.nil⟩
    · intro h; cases h
  | @red l r x n hl hr ihl ihr =>
    refine ⟨fun h => Bool.noConfusion h, fun _ => ?_⟩
    rcases lt_trichotomy k x with hlt | heq | hgt
    · obtain ⟨c', hl'⟩ := ihl.1 rfl
      have e : (node true l x r).insert k = node true (l.insert k) x r := by
        have hb : (node true (l.insert k) x r).balance = node true (l.insert k) x r :=
          balance_eq_of_bal true x hl' hr
        simp only [VTree.insert, hlt, if_true, hb]
      rw [e]
      cases c' with
      | false => exact Or.inl (Bal.red hl' hr)
      | true => exact Or.inr (RedRed.mk hl' hr)
    · subst heq
      have e : (node true l k r).insert k = node true l k r := by
        simp only [VTree.insert, lt_irrefl, gt_iff_lt, if_false]
      rw [e]; exact Or.inl (Bal.red hl hr)
    · obtain ⟨c', hr'⟩ := ihr.1 rfl
      cases c' with
      | false =>
        have e : (node true l x r).insert k = node true l x (r.insert k) := by
          simp only [VTree.insert, not_lt_of_gt hgt, hgt, if_true, if_false,
            (Bal.red hl hr').balance_id]
        rw [e]; exact Or.inl (Bal.red hl hr')
      | true =>
        cases hri : r.insert k with
        | nil => rw [hri] at hr'; cases hr'
        | node c2 rl y rr =>
          rw [hri] at hr'
          cases hr' with
          | red a b' =>
            have e : (node true l x r).insert k = node true (node true l x rl) y rr := by
              simp only [VTree.insert, not_lt_of_gt hgt, hgt, if_true, if_false, hri, balance,
                right_node, left_node, isRed_node, hl.colour, b'.colour, rotateLeft,
                Bool.not_false, Bool.and_self, Bool.and_false, Bool.false_eq_true]
            rw [e]; exact Or.inr (RedRed.mk (Bal.red hl a) b')
  | @black l r x c n hl hr ihl ihr =>
    refine ⟨fun _ => ?_, fun h => Bool.noConfusion h⟩
    rcases lt_trichotomy k x with hlt | heq | hgt
    · cases c with
      | false =>
        obtain ⟨c', hl'⟩ := ihl.1 rfl
        refine ⟨false, ?_⟩
        have e : (node false l x r).insert k = node false (l.insert k) x r := by
          simp only [VTree.insert, hlt, if_true, (Bal.black hl' hr).balance_id]
        rw [e]; exact Bal.black hl' hr
      | true =>
        rcases ihl.2 rfl with hl' | hl'
        · refine ⟨false, ?_⟩
          have e : (node false l x r).insert k = node false (l.insert k) x r := by
            simp only [VTree.insert, hlt, if_true, (Bal.black hl' hr).balance_id]
          rw [e]; exact Bal.black hl' hr
        · refine ⟨true, ?_⟩
          cases hli : l.insert k with
          | nil => rw [hli] at hl'; cases hl'
          | node c2 ll y lr =>
            rw [hli] at hl'
            cases hl' with
            | mk a b' =>
              cases a with
              | @red lll llr z _ a1 a2 =>
                have e : (node false l x r).insert k =
                    node true (node false lll z llr) y (node false lr x r) := by
                  simp only [VTree.insert, hlt, if_true, hli, balance, right_node, left_node,
                    isRed_node, hr.colour, rotateRight, flipColors, flipRoot, paint,
                    Bool.false_and, Bool.and_self, Bool.false_eq_true, if_false,
                    Bool.not_true, Bool.not_false]
                rw [e]
                exact Bal.red (Bal.black a1 a2) (Bal.black b' hr)
    · subst heq
      refine ⟨false, ?_⟩
      have e : (node false l k r).insert k = node false l k r := by
        simp only [VTree.insert, lt_irrefl, gt_iff_lt, if_false]
      rw [e]; exact Bal.black hl hr
    · obtain ⟨c', hr'⟩ := ihr.1 rfl
      cases c' with
      | false =>
        refine ⟨false, ?_⟩
        have e : (node false l x r).insert k = node false l x (r.insert k) := by
          simp only [VTree.insert, not_lt_of_gt hgt, hgt, if_true, if_false,
            (Bal.black hl hr').balance_id]
        rw [e]; exact Bal.black hl hr'
      | true =>
        cases hri : r.insert k with
        | nil => rw [hri] at hr'; cases hr'
        | node c2 rl y rr =>
          rw [hri] at hr'
          cases hr' with
          | red a b' =>
            cases c with
            | false =>
              refine ⟨false, ?_⟩
              have e : (node false l x r).insert k = node false (node true l x rl) y rr := by
                simp only [VTree.insert, not_lt_of_gt hgt, hgt, if_true, if_false, hri, balance,
                  right_node, left_node, isRed_node, hl.colour, b'.colour, rotateLeft,
                  Bool.not_false, Bool.and_self, Bool.and_false, Bool.false_eq_true]
              rw [e]; exact Bal.black (Bal.red hl a) b'
            | true =>
              refine ⟨true, ?_⟩
              cases hl with
              | @red ll lr z _ l1 l2 =>
                have e : (node false (node true ll z lr) x r).insert k =
                    node true (node false ll z lr) x (node false rl y rr) := by
                  simp only [VTree.insert, not_lt_of_gt hgt, hgt, if_true, if_false, hri, balance,
                    right_node, left_node, isRed_node, l1.colour, flipColors, flipRoot, paint,
                    Bool.not_true, Bool.not_false, Bool.and_self, Bool.and_false,
                    Bool.false_eq_true, Bool.false_and, Bool.and_true]
                rw [e]
                exact Bal.red (Bal.black l1 l2) (Bal.black a b')

/-- A published version is well shaped with a BLACK root, and stays so under `add`. -/
theorem Bal.add_shape (k : α) {t : VTree α} {n : Nat} (b : Bal t false n) :
    ∃ n', Bal (t.add k) false n' := by
  obtain ⟨c', h⟩ := (b.insert_shape k).1 rfl
  unfold VTree.add blacken
  generalize t.insert k = u at h
  cases c' with
  | false =>
    refine ⟨n, ?_⟩
    cases h with
    | nil => exact Bal.nil
    | black a b' => exact Bal.black a b'
  | true => exact ⟨n + 1, h.paint_black⟩

theorem bal_foldl_add (keys : List α) : ∀ (t : VTree α) (n : Nat), Bal t false n →
    ∃ n', Bal (keys.foldl VTree.add t) false n' := by
  induction keys with
  | nil => intro t n b; exact ⟨n, b⟩
  | cons k ks ih =>
    intro t n b
    obtain ⟨n1, b1⟩ := b.add_shape k
    exact ih _ n1 b1

end VTree

namespace VTree
variable {α : Type}

theorem Bal.blackCounts_eq {t : VTree α} {c : Bool} {n : Nat} (b : Bal t c n) :
    ∀ k ∈ t.blackCounts, k = n := by
  induction b with
  | nil => intro k hk; simpa [VTree.blackCounts] using hk
  | red _ _ ihl ihr =>
    intro k hk
    simp only [VTree.blackCounts, List.mem_map, List.mem_append, if_true, Nat.add_zero] at hk
    obtain ⟨b, hb | hb, rfl⟩ := hk
    · exact ihl b hb
    · exact ihr b hb
  | black _ _ ihl ihr =>
    intro k hk
    simp only [VTree.blackCounts, List.mem_map, List.mem_append, Bool.false_eq_true,
      if_false] at hk
    obtain ⟨b, hb | hb, rfl⟩ := hk
    · rw [ihl b hb]
    · rw [ihr b hb]

theorem Bal.noRedRed_eq {t : VTree α} {c : Bool} {n : Nat} (b : Bal t c n) :
    t.noRedRed = true := by
  induction b with
  | nil => rfl
  | red hl hr ihl ihr => simp [VTree.noRedRed, hl.colour, hr.colour, ihl, ihr]
  | black _ _ ihl ihr => simp [VTree.noRedRed, ihl, ihr]

variable [LinearOrder α]

/-- Re-inserting a key of a well-shaped search tree returns the tree itself. -/
theorem Bal.insert_dup (k : α) {t : VTree α} {c : Bool} {n : Nat} (b : Bal t c n) :
    t.Ordered → k ∈ t.inOrder → t.insert k = t := by
  induction b with
  | nil => intro _ hk; cases hk
  | @red l r x n hl hr ihl ihr =>
    intro ho hk
    obtain ⟨hL, hR, hLx, hxR⟩ := sorted_node_iff.1 ho
    simp only [inOrder_node, List.mem_append, List.mem_singleton] at hk
    rcases lt_trichotomy k x with hlt | heq | hgt
    · have hkl : k ∈ l.inOrder := by
        rcases hk with (hk | hk) | hk
        · exact hk
        · exact absurd hk (ne_of_lt hlt)
        · exact absurd (hxR k hk) (not_lt_of_gt hlt)
      simp only [VTree.insert, hlt, if_true, ihl hL hkl, balance_eq_of_bal true x hl hr]
    · subst heq; simp only [VTree.insert, lt_irrefl, gt_iff_lt, if_false]
    · have hkr : k ∈ r.inOrder := by
        rcases hk with (hk | hk) | hk
        · exact absurd (hLx k hk) (not_lt_of_gt hgt)
        · exact absurd hk (ne_of_gt hgt)
        · exact hk
      simp only [VTree.insert, not_lt_of_gt hgt, hgt, if_true, if_false, ihr hR hkr,
        balance_eq_of_bal true x hl hr]
  | @black l r x c n hl hr ihl ihr =>
    intro ho hk
    obtain ⟨hL, hR, hLx, hxR⟩ := sorted_node_iff.1 ho
    simp only [inOrder_node, List.mem_append, List.mem_singleton] at hk
    rcases lt_trichotomy k x with hlt | heq | hgt
    · have hkl : k ∈ l.inOrder := by
        rcases hk with (hk | hk) | hk
        · exact hk
        · exact absurd hk (ne_of_lt hlt)
        · exact absurd (hxR k hk) (not_lt_of_gt hlt)
      simp only [VTree.insert, hlt, if_true, ihl hL hkl, balance_eq_of_bal false x hl hr]
    · subst heq; simp only [VTree.insert, lt_irrefl, gt_iff_lt, if_false]
    · have hkr : k ∈ r.inOrder := by
        rcases hk with (hk | hk) | hk
        · exact absurd (hLx k hk) (not_lt_of_gt hgt)
        · exact absurd hk (ne_of_gt hgt)
        · exact hk
      simp only [VTree.insert, not_lt_of_gt hgt, hgt, if_true, if_false, ihr hR hkr,
        balance_eq_of_bal false x hl hr]

theorem Bal.add_dup (k : α) {t : VTree α} {n : Nat} (b : Bal t false n)
    (ho : t.Ordered) (hk : k ∈ t.inOrder) : t.add k = t := by
  unfold VTree.add
  rw [b.insert_dup k ho hk]
  cases b with
  | nil => rfl
  | black _ _ => rfl

end VTree

namespace PersistentRBTree
variable {α : Type} [LinearOrder α]

/-- The fold from the empty version publishes a well-shaped, ordered tree; it is the
shared core of the claims about versions built by the driver loop. -/
theorem build_tree (keys : List α) :
    ∃ H v t f, build keys = some (H, v) ∧ Owns H v.root t f ∧ f.Nodup ∧
      t = keys.foldl VTree.add VTree.nil ∧ t.Ordered ∧ (∃ n, VTree.Bal t false n) ∧
      (∀ y, y ∈ t.inOrder ↔ y ∈ keys) := by
  obtain ⟨H, v, f, e, o, hf⟩ := build_spec keys
  refine ⟨H, v, _, f, e, o, hf, rfl, VTree.ordered_foldl_add keys _ VTree.ordered_nil,
    VTree.bal_foldl_add keys _ 0 VTree.Bal.nil, fun y => ?_⟩
  rw [VTree.mem_foldl_add keys _ VTree.ordered_nil]
  simp

/-- C1. Adding the keys of any list one by one to the empty tree and reading the
sorted elements returns the ascending duplicate-free list of the distinct keys of
the list; for 5, 3, 7, 3 it returns [3, 5, 7]. -/
theorem C1_build_sorted_distinct :
    (∀ (β : Type) [LinearOrder β] (keys : List β), ∃ H v, build keys = some (H, v) ∧
      getSortedElements H v = some (keys.toFinset.sort (· ≤ ·))) ∧
    (build [(5 : Int), 3, 7, 3]).bind (fun s => getSortedElements s.1 s.2) = some [3, 5, 7] := by
  refine ⟨fun β _ keys => ?_, by decide⟩
  obtain ⟨H, v, t, f, e, o, hf, _, ho, _, hmem⟩ := build_tree keys
  refine ⟨H, v, e, ?_⟩
  rw [getSortedElements_of_owns o hf]
  congr 1
  have hs : t.inOrder.Sorted (· < ·) := ho
  refine List.eq_of_perm_of_sorted ?_ (hs.imp le_of_lt) (Finset.sort_sorted _ _)
  refine (List.perm_ext_iff_of_nodup hs.nodup (Finset.sort_nodup _ _)).2 (fun y => ?_)
  rw [hmem, Finset.mem_sort, List.mem_toFinset]

/-- C2. For a version built by the driver loop from any key list and a key k that is
not among those keys, the sorted elements after adding k are the sorted elements
before with k put in at its ordered position (everything before it is smaller,
everything after it larger) and nothing else changed. -/
theorem C2_add_new_key (keys : List α) (k : α) (hk : k ∉ keys) :
    ∃ H v H' v' pre post, build keys = some (H, v) ∧ add H v k = some (H', v') ∧
      getSortedElements H v = some (pre ++ post) ∧
      getSortedElements H' v' = some (pre ++ k :: post) ∧
      (∀ y ∈ pre, y < k) ∧ (∀ y ∈ post, k < y) := by
  obtain ⟨H, v, t, f, e, o, hf, _, ho, _, hmem⟩ := build_tree keys
  obtain ⟨H', v', e', ⟨f', o', hf', _⟩, _, _⟩ := add_spec o hf k
  obtain ⟨pre, post, e1, e2, h1, h2⟩ :=
    VTree.inOrder_insert_new k t ho (fun hin => hk ((hmem k).1 hin))
  refine ⟨H, v, H', v', pre, post, e, e', ?_, ?_, h1, h2⟩
  · rw [getSortedElements_of_owns o hf, e1]
  · rw [getSortedElements_of_owns o' hf', VTree.add, VTree.inOrder_blacken, e2]

/-- Witness for C2: keys 10, 20 and the new key 15. -/
theorem C2_add_new_key_witness :
    (15 : Int) ∉ [(10 : Int), 20] ∧
    ∃ H v H' v' pre post, build [(10 : Int), 20] = some (H, v) ∧ add H v 15 = some (H', v') ∧
      getSortedElements H v = some (pre ++ post) ∧
      getSortedElements H' v' = some (pre ++ 15 :: post) ∧
      (∀ y ∈ pre, y < 15) ∧ (∀ y ∈ post, 15 < y) :=
  ⟨by decide, C2_add_new_key [10, 20] 15 (by decide)⟩

/-- C3. For every version built by the driver loop from any key list, repeated keys
included, the sorted elements are strictly increasing: each element is smaller than
all later ones, so no key is repeated. -/
theorem C3_sorted_strictly_increasing (keys : List α) :
    ∃ H v xs, build keys = some (H, v) ∧ getSortedElements H v = some xs ∧
      xs.Sorted (· < ·) ∧ xs.Nodup := by
  obtain ⟨H, v, t, f, e, o, hf, _, ho, _, _⟩ := build_tree keys
  have hs : t.inOrder.Sorted (· < ·) := ho
  exact ⟨H, v, _, e, getSortedElements_of_owns o hf, hs, hs.nodup⟩

/-- C4. For every version v1 whose root denotes a tree and every key k, add returns a
new version, and reading the sorted elements of v1 in the heap left behind by add
gives the same sequence as before the call; the root of v1 still denotes a tree
there. -/
theorem C4_old_version_same_elements (h : Heap α) (v1 : PersistentRBTree) (k : α)
    (hv : IsTree h v1.root) :
    ∃ H v2 xs, add h v1 k = some (H, v2) ∧ getSortedElements h v1 = some xs ∧
      getSortedElements H v1 = some xs ∧ IsTree H v1.root := by
  obtain ⟨t, f, o, hf⟩ := hv
  obtain ⟨H, v2, e, _, hlen, hfr⟩ := add_spec o hf k
  obtain ⟨t', o', _⟩ := o.survive hfr o.lt
  refine ⟨H, v2, t.inOrder, e, getSortedElements_of_owns o hf, ?_, t', f, o', hf⟩
  exact inOrderTraversal_of_frame o hfr o.lt _ (by have := o.height_lt hf; omega)

theorem isTree_versionAfter10And20 : IsTree heapAfter10And20 versionAfter10And20.root :=
  ⟨VTree.node false (VTree.node true VTree.nil 10 VTree.nil) 20 VTree.nil, [3, 4],
    Owns.mk' (a := 3) (n := ⟨20, some 4, none, none, false⟩) rfl rfl rfl
      (Owns.mk' (a := 4) (n := ⟨10, none, none, some 3, true⟩) rfl rfl rfl Owns.nil Owns.nil)
      Owns.nil, by decide⟩

/-- Witness for C4: v1 is built from 10 and 20, the key added is 15; v1 reads
[10, 20] before and after, the new version reads [10, 15, 20]. -/
theorem C4_old_version_same_elements_witness :
    build [(10 : Int), 20] = some (heapAfter10And20, versionAfter10And20) ∧
    IsTree heapAfter10And20 versionAfter10And20.root ∧
    (∃ H v2 xs, add heapAfter10And20 versionAfter10And20 15 = some (H, v2) ∧
      getSortedElements heapAfter10And20 versionAfter10And20 = some xs ∧
      getSortedElements H versionAfter10And20 = some xs ∧
      IsTree H versionAfter10And20.root) ∧
    (add heapAfter10And20 versionAfter10And20 15).bind (fun s =>
      some (getSortedElements heapAfter10And20 versionAfter10And20,
        getSortedElements s.1 versionAfter10And20, getSortedElements s.1 s.2)) =
      some (some [10, 20], some [10, 20], some [10, 15, 20]) :=
  ⟨by decide, isTree_versionAfter10And20,
    C4_old_version_same_elements heapAfter10And20 versionAfter10And20 15
      isTree_versionAfter10And20, by decide⟩

/-- C5 (the code departs from the claim). With v1 built from 10 and 20, the tree of v1
is 20 BLACK over a RED 10 before v1.add(30) and 20 BLACK over a BLACK 10 after it: the
colour flip wrote through the child pointer that the clone of the root shares with
v1, and v1 now has two BLACK nodes on its left path and one on its right path. -/
theorem C5_add_recolours_node_of_old_version :
    (add heapAfter10And20 versionAfter10And20 30).bind (fun s =>
      some (toTree heapAfter10And20 versionAfter10And20, toTree s.1 versionAfter10And20)) =
      some (some (VTree.node false (VTree.node true VTree.nil 10 VTree.nil) 20 VTree.nil),
        some (VTree.node false (VTree.node false VTree.nil 10 VTree.nil) 20 VTree.nil)) ∧
    build [(10 : Int), 20] = some (heapAfter10And20, versionAfter10And20) ∧
    (VTree.node false (VTree.node false VTree.nil (10 : Int) VTree.nil) 20
      VTree.nil).blackCounts = [2, 2, 1] := by
  decide

/-- C6. In the version the driver loop returns for any key list, every path from the
root to an empty position crosses the same number of BLACK nodes. -/
theorem C6_equal_black_height (keys : List α) :
    ∃ H v t n, build keys = some (H, v) ∧ toTree H v = some t ∧
      ∀ b ∈ t.blackCounts, b = n := by
  obtain ⟨H, v, t, f, e, o, hf, _, _, ⟨n, hb⟩, _⟩ := build_tree keys
  exact ⟨H, v, t, n, e, toTree_of_owns o hf, hb.blackCounts_eq⟩

/-- C7. In the version the driver loop returns for any key list, no RED node has a
RED child, neither left nor right. -/
theorem C7_no_red_red (keys : List α) :
    ∃ H v t, build keys = some (H, v) ∧ toTree H v = some t ∧ t.noRedRed = true := by
  obtain ⟨H, v, t, f, e, o, hf, _, _, ⟨n, hb⟩, _⟩ := build_tree keys
  exact ⟨H, v, t, e, toTree_of_owns o hf, hb.noRedRed_eq⟩

/-- C8. For every version whose root denotes a tree, of any shape and colouring, and
every key, add returns a version whose root is a node, and that node is BLACK. -/
theorem C8_root_black (h : Heap α) (v : PersistentRBTree) (k : α) (hv : IsTree h v.root) :
    ∃ H v' a n, add h v k = some (H, v') ∧ v'.root = some a ∧ H[a]? = some n ∧
      n.isRed = false := by
  obtain ⟨t, f, o, hf⟩ := hv
  obtain ⟨H, v', e, ⟨f', o', _, _⟩, _, _⟩ := add_spec o hf k
  have hnode : (t.add k).IsNode ∧ (t.add k).isRed = false := by
    unfold VTree.add VTree.blacken
    have hi := VTree.isNode_insert t k
    revert hi
    cases t.insert k with
    | nil => intro hi; exact False.elim hi
    | node c l x r => intro _; exact ⟨trivial, rfl⟩
  obtain ⟨a, c, l, x, r, ha, et⟩ := o'.some_of_isNode hnode.1
  rw [ha] at o'
  obtain ⟨n, hn, _⟩ := o'.root_lookup
  refine ⟨H, v', a, n, e, ha, hn, ?_⟩
  have h1 := o'.isRed_eq
  rw [hnode.2] at h1
  simpa [PersistentRBTree.isRed, hn] using h1

/-- Witness for C8: a heap holding one RED node, taken as the root of a version. -/
theorem C8_root_black_witness :
    IsTree [(⟨10, none, none, none, true⟩ : Node Int)] (PersistentRBTree.mk (some 0)).root ∧
    ∃ H v' a n, add [(⟨10, none, none, none, true⟩ : Node Int)] (PersistentRBTree.mk (some 0)) 5
        = some (H, v') ∧ v'.root = some a ∧ H[a]? = some n ∧ n.isRed = false :=
  ⟨⟨VTree.node true VTree.nil 10 VTree.nil, [0],
      Owns.mk' (a := 0) (n := ⟨10, none, none, none, true⟩) rfl rfl rfl Owns.nil Owns.nil,
      by decide⟩,
    C8_root_black _ _ 5 ⟨VTree.node true VTree.nil 10 VTree.nil, [0],
      Owns.mk' (a := 0) (n := ⟨10, none, none, none, true⟩) rfl rfl rfl Owns.nil Owns.nil,
      by decide⟩⟩

/-- C9. For a version built by the driver loop from any key list and a key k among
those keys, the tree of the version returned by add has the same keys, shape and
colours as the tree of the version it was added to. -/
theorem C9_add_existing_key_same_tree (keys : List α) (k : α) (hk : k ∈ keys) :
    ∃ H v H' v' t, build keys = some (H, v) ∧ add H v k = some (H', v') ∧
      toTree H v = some t ∧ toTree H' v' = some t := by
  obtain ⟨H, v, t, f, e, o, hf, _, ho, ⟨n, hb⟩, hmem⟩ := build_tree keys
  obtain ⟨H', v', e', ⟨f', o', hf', _⟩, _, _⟩ := add_spec o hf k
  rw [hb.add_dup k ho ((hmem k).2 hk)] at o'
  exact ⟨H, v, H', v', t, e, e', toTree_of_owns o hf, toTree_of_owns o' hf'⟩

/-- Witness for C9: keys 5, 3, 7 and the key 3 added again. -/
theorem C9_add_existing_key_same_tree_witness :
    (3 : Int) ∈ [(5 : Int), 3, 7] ∧
    ∃ H v H' v' t, build [(5 : Int), 3, 7] = some (H, v) ∧ add H v 3 = some (H', v') ∧
      toTree H v = some t ∧ toTree H' v' = some t :=
  ⟨by decide, C9_add_existing_key_same_tree [5, 3, 7] 3 (by decide)⟩

/-- C10. For a version built by the driver loop from any key list and any key k,
adding k twice gives the same sorted elements as adding it once. -/
theorem C10_add_twice_same_elements (keys : List α) (k : α) :
    ∃ H v H1 v1 H2 v2 xs, build keys = some (H, v) ∧ add H v k = some (H1, v1) ∧
      add H1 v1 k = some (H2, v2) ∧ getSortedElements H1 v1 = some xs ∧
      getSortedElements H2 v2 = some xs := by
  obtain ⟨H, v, t, f, e, o, hf, _, ho, _, _⟩ := build_tree keys
  obtain ⟨H1, v1, e1, ⟨f1, o1, hf1, _⟩, _, _⟩ := add_spec o hf k
  obtain ⟨H2, v2, e2, ⟨f2, o2, hf2, _⟩, _, _⟩ := add_spec o1 hf1 k
  refine ⟨H, v, H1, v1, H2, v2, _, e, e1, e2, getSortedElements_of_owns o1 hf1, ?_⟩
  rw [getSortedElements_of_owns o2 hf2]
  congr 1
  have ho1 := VTree.ordered_add k t ho
  have hk1 : k ∈ (t.add k).inOrder := (VTree.mem_inOrder_add k t ho k).2 (Or.inl rfl)
  unfold VTree.add at hk1 ho1 ⊢
  rw [VTree.inOrder_blacken] at hk1 ⊢
  have ho1' : (t.insert k).blacken.Ordered := ho1
  exact VTree.inOrder_insert_dup k _ ho1' (by rw [VTree.inOrder_blacken]; exact hk1)

end PersistentRBTree

namespace VTree
variable {α : Type}

theorem Bal.noRedRight_eq {t : VTree α} {c : Bool} {n : Nat} (b : Bal t c n) :
    t.noRedRight = true := by
  induction b with
  | nil => rfl
  | red _ hr ihl ihr => simp [VTree.noRedRight, hr.colour, ihl, ihr]
  | black _ hr ihl ihr => simp [VTree.noRedRight, hr.colour, ihl, ihr]

theorem Bal.height_le_twice {t : VTree α} {c : Bool} {n : Nat} (b : Bal t c n) :
    t.height ≤ 2 * n + (if c then 1 else 0) := by
  induction b with
  | nil => simp [VTree.height]
  | red _ _ ihl ihr =>
    simp only [VTree.height, Bool.false_eq_true, if_false, if_true] at *
    omega
  | @black l r x c n _ _ ihl ihr =>
    simp only [VTree.height, Bool.false_eq_true, if_false] at *
    have : (if c = true then 1 else 0) ≤ 1 := by split <;> omega
    omega

theorem Bal.pow_le {t : VTree α} {c : Bool} {n : Nat} (b : Bal t c n) :
    2 ^ n ≤ t.inOrder.length + 1 := by
  induction b with
  | nil => simp
  | red _ _ ihl ihr =>
    simp only [inOrder_node, List.length_append, List.length_singleton]
    omega
  | black _ _ ihl ihr =>
    simp only [inOrder_node, List.length_append, List.length_singleton, pow_succ]
    omega

/-- A well-shaped tree with a BLACK root is at most twice as high as the logarithm of
its number of keys plus one. -/
theorem Bal.height_bound {t : VTree α} {n : Nat} (b : Bal t false n) :
    2 ^ t.height ≤ (t.inOrder.length + 1) ^ 2 ∧
      t.height ≤ 2 * Nat.log 2 (t.inOrder.length + 1) := by
  have h1 : t.height ≤ 2 * n := by simpa using b.height_le_twice
  have h2 := b.pow_le
  constructor
  · calc 2 ^ t.height ≤ 2 ^ (2 * n) := Nat.pow_le_pow_right (by decide) h1
      _ = (2 ^ n) ^ 2 := by rw [Nat.mul_comm, pow_mul]
      _ ≤ (t.inOrder.length + 1) ^ 2 := Nat.pow_le_pow_left h2 2
  · have h3 : n ≤ Nat.log 2 (t.inOrder.length + 1) :=
      Nat.le_log_of_pow_le (by decide) h2
    omega

end VTree

namespace PersistentRBTree
variable {α : Type} [LinearOrder α]

/-- C11. For two key lists that are permutations of one another, in particular
two orderings of the same distinct keys, the versions built by the driver loop have
the same sorted elements. -/
theorem C11_permutation_same_elements (keys1 keys2 : List α) (hp : keys1.Perm keys2) :
    ∃ H1 v1 H2 v2 xs, build keys1 = some (H1, v1) ∧ build keys2 = some (H2, v2) ∧
      getSortedElements H1 v1 = some xs ∧ getSortedElements H2 v2 = some xs := by
  obtain ⟨H1, v1, t1, f1, e1, o1, hf1, _, ho1, _, hm1⟩ := build_tree keys1
  obtain ⟨H2, v2, t2, f2, e2, o2, hf2, _, ho2, _, hm2⟩ := build_tree keys2
  refine ⟨H1, v1, H2, v2, t1.inOrder, e1, e2, getSortedElements_of_owns o1 hf1, ?_⟩
  rw [getSortedElements_of_owns o2 hf2]
  congr 1
  have hs1 : t1.inOrder.Sorted (· < ·) := ho1
  have hs2 : t2.inOrder.Sorted (· < ·) := ho2
  refine List.eq_of_perm_of_sorted ?_ (hs2.imp le_of_lt) (hs1.imp le_of_lt)
  refine (List.perm_ext_iff_of_nodup hs2.nodup hs1.nodup).2 (fun y => ?_)
  rw [hm1, hm2]
  exact (hp.mem_iff).symm

/-- Witness for C11: the keys 3, 1, 2 and the same keys in ascending order. -/
theorem C11_permutation_same_elements_witness :
    [(3 : Int), 1, 2].Perm [1, 2, 3] ∧
    ∃ H1 v1 H2 v2 xs, build [(3 : Int), 1, 2] = some (H1, v1) ∧
      build [(1 : Int), 2, 3] = some (H2, v2) ∧
      getSortedElements H1 v1 = some xs ∧ getSortedElements H2 v2 = some xs :=
  ⟨by decide, C11_permutation_same_elements [3, 1, 2] [1, 2, 3] (by decide)⟩

/-- C12. The version the driver loop returns for any key list, holding n distinct
keys, has height h (nodes on the longest path from the root to an empty position)
with 2^h ≤ (n+1)^2 and h ≤ 2·⌊log2(n+1)⌋; the run 1..7 gives height 3. -/
theorem C12_height_logarithmic :
    (∀ (β : Type) [LinearOrder β] (keys : List β), ∃ H v t, build keys = some (H, v) ∧
      toTree H v = some t ∧ 2 ^ t.height ≤ (keys.toFinset.card + 1) ^ 2 ∧
      t.height ≤ 2 * Nat.log 2 (keys.toFinset.card + 1)) ∧
    (build [(1 : Int), 2, 3, 4, 5, 6, 7]).bind (fun s => (toTree s.1 s.2).map VTree.height)
      = some 3 := by
  refine ⟨fun β _ keys => ?_, by decide⟩
  obtain ⟨H, v, t, f, e, o, hf, _, ho, ⟨n, hb⟩, hmem⟩ := build_tree keys
  have hs : t.inOrder.Sorted (· < ·) := ho
  have hlen : t.inOrder.length = keys.toFinset.card := by
    rw [← List.toFinset_card_of_nodup hs.nodup]
    congr 1
    ext y
    rw [List.mem_toFinset, List.mem_toFinset, hmem]
  have hb2 := hb.height_bound
  rw [hlen] at hb2
  exact ⟨H, v, t, e, toTree_of_owns o hf, hb2.1, hb2.2⟩

/-- C16. In the version the driver loop returns for any key list, no node has a RED
right child. -/
theorem C16_no_red_right_child (keys : List α) :
    ∃ H v t, build keys = some (H, v) ∧ toTree H v = some t ∧ t.noRedRight = true := by
  obtain ⟨H, v, t, f, e, o, hf, _, _, ⟨n, hb⟩, _⟩ := build_tree keys
  exact ⟨H, v, t, e, toTree_of_owns o hf, hb.noRedRight_eq⟩

end PersistentRBTree

namespace PersistentRBTree
variable {α : Type}

/-- C13. Reading the sorted elements of the empty version returns the empty
sequence, in any heap, and does not fail. -/
theorem C13_empty_version_elements (h : Heap α) :
    getSortedElements h empty = some [] ∧
      getSortedElements ([] : Heap α) empty = some [] :=
  ⟨rfl, rfl⟩

end PersistentRBTree

namespace PersistentRBTree
variable {α : Type}

/-- A tree read back from a well-formed pointer is the tree the pointer owns. -/
theorem Owns.eq_of_toTree {h : Heap α} {p : Option Nat} {t u : VTree α} {f : List Nat}
    (o : Owns h p t f) (hf : f.Nodup) (hu : toTree h ⟨p⟩ = some u) : t = u := by
  have ht : toTree h ⟨p⟩ = some t := toTree_of_owns (v := ⟨p⟩) o hf
  rw [ht] at hu
  exact Option.some.inj hu

theorem Reach.tree {h H : Heap α} {f : List Nat} {q : Option Nat} {t : VTree α}
    (r : Reach h f H q t) : toTree H ⟨q⟩ = some t := by
  obtain ⟨⟨f', o, hn, _⟩, _, _⟩ := r
  exact toTree_of_owns (v := ⟨q⟩) o hn

/-- C17. For a pointer to a well-formed tree whose root has colour c, key x, left
subtree l and a right child with key y and subtrees rl and rr, rotateLeft returns a
node with key y and colour c whose right subtree is rr and whose left child is RED
with key x, left subtree l and right subtree rl; rotateRight is the mirror image. -/
theorem C17_rotation_result (h : Heap α) (p : Option Nat) (hp : IsTree h p) (c c2 : Bool)
    (x y : α) (t1 t2 t3 : VTree α) :
    (toTree h ⟨p⟩ = some (VTree.node c t1 x (VTree.node c2 t2 y t3)) →
      ∃ H q, rotateLeft h p = some (H, q) ∧
        toTree H ⟨q⟩ = some (VTree.node c (VTree.node true t1 x t2) y t3)) ∧
    (toTree h ⟨p⟩ = some (VTree.node c (VTree.node c2 t1 y t2) x t3) →
      ∃ H q, rotateRight h p = some (H, q) ∧
        toTree H ⟨q⟩ = some (VTree.node c t1 y (VTree.node true t2 x t3))) := by
  obtain ⟨t, f, o, hf⟩ := hp
  constructor
  · intro ht
    have e := o.eq_of_toTree hf ht
    subst e
    obtain ⟨a, _, _, _, _, rfl, _⟩ := o.some_of_isNode trivial
    obtain ⟨H, q, e, r⟩ := rotateLeft_spec o hf
    exact ⟨H, q, e, r.tree⟩
  · intro ht
    have e := o.eq_of_toTree hf ht
    subst e
    obtain ⟨a, _, _, _, _, rfl, _⟩ := o.some_of_isNode trivial
    obtain ⟨H, q, e, r⟩ := rotateRight_spec o hf
    exact ⟨H, q, e, r.tree⟩

theorem isTree_heapRightLeaning : IsTree heapRightLeaning (some 0) :=
  ⟨VTree.node false VTree.nil 10 (VTree.node true VTree.nil 20 VTree.nil), [0, 1],
    Owns.mk' (a := 0) (n := ⟨10, none, some 1, none, false⟩) rfl rfl rfl Owns.nil
      (Owns.mk' (a := 1) (n := ⟨20, none, none, some 0, true⟩) rfl rfl rfl Owns.nil Owns.nil),
    by decide⟩

/-- Witness for C17: rotateLeft on the BLACK node 10 with the RED right child 20
returns a BLACK node 20 over a RED left child 10. -/
theorem C17_rotation_result_witness :
    IsTree heapRightLeaning (some 0) ∧
    toTree heapRightLeaning ⟨some 0⟩ =
      some (VTree.node false VTree.nil 10 (VTree.node true VTree.nil 20 VTree.nil)) ∧
    ((toTree heapRightLeaning ⟨some 0⟩ =
        some (VTree.node false VTree.nil 10 (VTree.node true VTree.nil 20 VTree.nil)) →
      ∃ H q, rotateLeft heapRightLeaning (some 0) = some (H, q) ∧
        toTree H ⟨q⟩ = some (VTree.node false (VTree.node true VTree.nil 10 VTree.nil) 20
          VTree.nil)) ∧
    (toTree heapRightLeaning ⟨some 0⟩ =
        some (VTree.node false (VTree.node true VTree.nil 20 VTree.nil) 10 VTree.nil) →
      ∃ H q, rotateRight heapRightLeaning (some 0) = some (H, q) ∧
        toTree H ⟨q⟩ = some (VTree.node false VTree.nil 20
          (VTree.node true VTree.nil 10 VTree.nil)))) :=
  ⟨isTree_heapRightLeaning, by decide,
    C17_rotation_result heapRightLeaning (some 0) isTree_heapRightLeaning false true 10 20
      VTree.nil VTree.nil VTree.nil⟩

end PersistentRBTree

namespace PersistentRBTree
variable {α : Type} [LinearOrder α]

theorem Reach.elements {h H : Heap α} {f : List Nat} {q : Option Nat} {t : VTree α}
    (r : Reach h f H q t) : getSortedElements H ⟨q⟩ = some t.inOrder := by
  obtain ⟨⟨f', o, hn, _⟩, _, _⟩ := r
  exact getSortedElements_of_owns (v := ⟨q⟩) o hn

/-- C15. For every pointer to a well-formed non-empty subtree, of any shape and
colouring, balance returns a subtree whose in-order key sequence is that of its
argument; so do rotateLeft when the node has a right child and rotateRight when it
has a left child. -/
theorem C15_balance_keeps_key_sequence (h : Heap α) (a : Nat) (n : Node α)
    (hp : IsTree h (some a)) (hn : h[a]? = some n) :
    (∃ H q xs, balance h (some a) = some (H, q) ∧
      getSortedElements h ⟨some a⟩ = some xs ∧ getSortedElements H ⟨q⟩ = some xs) ∧
    (n.right.isSome → ∃ H q xs, rotateLeft h (some a) = some (H, q) ∧
      getSortedElements h ⟨some a⟩ = some xs ∧ getSortedElements H ⟨q⟩ = some xs) ∧
    (n.left.isSome → ∃ H q xs, rotateRight h (some a) = some (H, q) ∧
      getSortedElements h ⟨some a⟩ = some xs ∧ getSortedElements H ⟨q⟩ = some xs) := by
  obtain ⟨t, f, o, hf⟩ := hp
  have he : getSortedElements h ⟨some a⟩ = some t.inOrder :=
    getSortedElements_of_owns (v := ⟨some a⟩) o hf
  obtain ⟨c, l, x, r, ht⟩ : ∃ c l x r, t = VTree.node c l x r := by
    cases o with
    | node _ _ _ => exact ⟨_, _, _, _, rfl⟩
  subst ht
  refine ⟨?_, ?_, ?_⟩
  · obtain ⟨H, q, e, r'⟩ := balance_spec o hf trivial
    exact ⟨H, q, _, e, he, by rw [r'.elements, VTree.inOrder_balance]⟩
  · intro hr
    obtain ⟨a2, n2, fl2, fr2, ha2, rfl, hn2, _, _, ol, or⟩ := o.inv_node
    cases ha2
    rw [hn] at hn2; cases hn2
    cases r with
    | nil =>
      obtain ⟨e1, _⟩ := or.inv_nil
      rw [e1] at hr; cases hr
    | node c2 rl y rr =>
      obtain ⟨H, q, e, r'⟩ := rotateLeft_spec o hf
      refine ⟨H, q, _, e, he, ?_⟩
      rw [r'.elements]
      simp
  · intro hl
    obtain ⟨a2, n2, fl2, fr2, ha2, rfl, hn2, _, _, ol, or⟩ := o.inv_node
    cases ha2
    rw [hn] at hn2; cases hn2
    cases l with
    | nil =>
      obtain ⟨e1, _⟩ := ol.inv_nil
      rw [e1] at hl; cases hl
    | node c2 ll y lr =>
      obtain ⟨H, q, e, r'⟩ := rotateRight_spec o hf
      refine ⟨H, q, _, e, he, ?_⟩
      rw [r'.elements]
      simp

/-- Witness for C15: the BLACK node 10 with the RED right child 20; balance and
rotateLeft both return a subtree reading [10, 20]. -/
theorem C15_balance_keeps_key_sequence_witness :
    IsTree heapRightLeaning (some 0) ∧
    heapRightLeaning[0]? = some ⟨10, none, some 1, none, false⟩ ∧
    ((∃ H q xs, balance heapRightLeaning (some 0) = some (H, q) ∧
      getSortedElements heapRightLeaning ⟨some 0⟩ = some xs ∧
      getSortedElements H ⟨q⟩ = some xs) ∧
    ((some 1 : Option Nat).isSome → ∃ H q xs, rotateLeft heapRightLeaning (some 0) = some (H, q) ∧
      getSortedElements heapRightLeaning ⟨some 0⟩ = some xs ∧
      getSortedElements H ⟨q⟩ = some xs) ∧
    ((none : Option Nat).isSome → ∃ H q xs, rotateRight heapRightLeaning (some 0) = some (H, q) ∧
      getSortedElements heapRightLeaning ⟨some 0⟩ = some xs ∧
      getSortedElements H ⟨q⟩ = some xs)) ∧
    (balance heapRightLeaning (some 0)).bind (fun s => getSortedElements s.1 ⟨s.2⟩)
      = some [10, 20] :=
  ⟨isTree_heapRightLeaning, rfl,
    C15_balance_keeps_key_sequence heapRightLeaning 0 ⟨10, none, some 1, none, false⟩
      isTree_heapRightLeaning rfl, by decide⟩

/-- C19. For every version whose root denotes a tree, of any shape and colouring,
the empty tree included, and every key: insert returns a non-empty root and add
returns a version, so no statement of add, insert, balance or the rotations read or
wrote through an empty pointer (each of them fails on one: a rotation of a node
without the child it lifts, a colour or parent write through an empty pointer). -/
theorem C19_add_no_empty_dereference (h : Heap α) (v : PersistentRBTree) (k : α)
    (hv : IsTree h v.root) :
    (∃ H a, insert (h.length + 1) h v.root k = some (H, some a)) ∧
    (add h v k).isSome = true ∧
    (∀ (g : Heap α) (a : Nat) (n : Node α), g[a]? = some n →
      (n.right = none → rotateLeft g (some a) = none) ∧
      (n.left = none → rotateRight g (some a) = none)) ∧
    (∀ (g : Heap α) (w : Option Nat) (c : Bool),
      setParent g none w = none ∧ setIsRed g none c = none ∧ deref g none = none ∧
      balance g none = none ∧ rotateLeft g none = none ∧ rotateRight g none = none) := by
  obtain ⟨t, f, o, hf⟩ := hv
  refine ⟨?_, ?_, ?_, ?_⟩
  · obtain ⟨H, q, e, ⟨f', o', _, _⟩, _, _⟩ :=
      insert_spec k t (h.length + 1) h v.root f o hf (o.height_lt hf)
    obtain ⟨a, _, _, _, _, rfl, _⟩ := o'.some_of_isNode (VTree.isNode_insert t k)
    exact ⟨H, a, e⟩
  · obtain ⟨H, v', e, _⟩ := add_spec o hf k
    rw [e]; rfl
  · intro g a n hn
    constructor
    · intro hr
      simp only [rotateLeft, deref_some, hn, hr, deref_none, Option.bind_eq_bind,
        Option.some_bind, Option.none_bind]
    · intro hl
      simp only [rotateRight, deref_some, hn, hl, deref_none, Option.bind_eq_bind,
        Option.some_bind, Option.none_bind]
  · intro g w c
    exact ⟨rfl, rfl, rfl, rfl, rfl, rfl⟩

/-- Witness for C19: adding 5 to the version built from 10 and 20. -/
theorem C19_add_no_empty_dereference_witness :
    IsTree heapAfter10And20 versionAfter10And20.root ∧
    (add heapAfter10And20 versionAfter10And20 5).isSome = true :=
  ⟨isTree_versionAfter10And20,
    (C19_add_no_empty_dereference heapAfter10And20 versionAfter10And20 5
      isTree_versionAfter10And20).2.1⟩

end PersistentRBTree

namespace Tokenizer

theorem splitOnP_takeWhile (p : Nat → Bool) (xs : List Nat) :
    xs.splitOnP p = xs.takeWhile (fun c => !p c) ::
      (match xs.dropWhile (fun c => !p c) with
        | [] => []
        | _ :: ds => ds.splitOnP p) := by
  induction xs with
  | nil => rfl
  | cons x xs ih =>
    rw [List.splitOnP_cons]
    by_cases hx : p x = true
    · simp [hx]
    · have hx' : p x = false := by simpa using hx
      rw [ih]
      simp [hx', List.modifyHead]

theorem whitespaceTokens_eq (s : List Nat) :
    whitespaceTokens s = match extract s with
      | none => []
      | some (w, r) => w :: whitespaceTokens r := by
  induction s with
  | nil => rfl
  | cons x xs ih =>
    by_cases hx : isspace x = true
    · have e1 : whitespaceTokens (x :: xs) = whitespaceTokens xs := by
        simp [whitespaceTokens, hx]
      have e2 : extract (x :: xs) = extract xs := by
        simp [extract, hx]
      rw [e1, e2, ih]
    · have hx' : isspace x = false := by simpa using hx
      have e2 : extract (x :: xs) = some (x :: xs.takeWhile (fun c => !isspace c),
          xs.dropWhile (fun c => !isspace c)) := by
        simp [extract, hx']
      rw [e2]
      simp only [whitespaceTokens]
      rw [splitOnP_takeWhile]
      simp only [List.takeWhile_cons, List.dropWhile_cons, hx', Bool.not_false, if_true,
        List.filter_cons, List.isEmpty_cons]
      congr 1
      rcases hd : xs.dropWhile (fun c => !isspace c) with _ | ⟨d, ds⟩
      · rfl
      · have hdp : isspace d = true := by
          have := List.head_dropWhile_not (fun c => !isspace c) xs (by rw [hd]; simp)
          simpa [hd] using this
        simp [hdp]

end Tokenizer

namespace Tokenizer

theorem extract_some {s w r : List Nat} (h : extract s = some (w, r)) :
    w ≠ [] ∧ (∀ c ∈ w, isspace c = false) ∧ (∀ c ∈ w, c ∈ s) ∧ (∀ c ∈ r, c ∈ s) ∧
      r.length < s.length := by
  unfold extract at h
  simp only [] at h
  split at h
  · cases h
  · rename_i hne
    simp only [Option.some.injEq, Prod.mk.injEq] at h
    obtain ⟨rfl, rfl⟩ := h
    have hne' : s.dropWhile isspace ≠ [] := by simpa using hne
    obtain ⟨d, ds, hd⟩ := List.exists_cons_of_ne_nil hne'
    have hdp : isspace d = false := by
      have := List.head_dropWhile_not isspace s (by rw [hd]; simp)
      simpa [hd] using this
    have hsub : ∀ c ∈ s.dropWhile isspace, c ∈ s :=
      fun c hc => (List.dropWhile_sublist _).subset hc
    have hlen : (s.dropWhile isspace).length ≤ s.length :=
      (List.dropWhile_sublist _).length_le
    refine ⟨?_, ?_, ?_, ?_, ?_⟩
    · rw [hd]; simp [hdp]
    · intro c hc
      have := List.mem_takeWhile_imp hc
      simpa using this
    · exact fun c hc => hsub c ((List.takeWhile_sublist _).subset hc)
    · exact fun c hc => hsub c ((List.dropWhile_sublist _).subset hc)
    · have h1 := List.takeWhile_append_dropWhile (fun c => !isspace c) (s.dropWhile isspace)
      have h2 : ((s.dropWhile isspace).takeWhile (fun c => !isspace c)).length ≥ 1 := by
        rw [hd]; simp [hdp]
      have h3 := congrArg List.length h1
      rw [List.length_append] at h3
      omega

theorem mapM_tolower {w : List Nat} (hw : ∀ c ∈ w, c < 128) :
    w.mapM tolower = some (w.map (fun c => if isupper c then c + 32 else c)) := by
  induction w with
  | nil => rfl
  | cons c cs ih =>
    have hc : c < 128 := hw c (List.mem_cons_self _ _)
    rw [List.mapM_cons, ih (fun d hd => hw d (List.mem_cons_of_mem _ hd))]
    simp [tolower, hc]

theorem tokenizeLoop_eq : ∀ (fuel : Nat) (s : List Nat) (acc : List (List Nat)),
    s.length < fuel → (∀ c ∈ s, c < 128) →
    tokenizeLoop fuel s acc =
      some (acc ++ ((whitespaceTokens s).map normalize).filter (fun w => !w.isEmpty)) := by
  intro fuel
  induction fuel with
  | zero => intro s acc h; omega
  | succ fuel ih =>
    intro s acc hlen hascii
    rw [whitespaceTokens_eq]
    unfold tokenizeLoop
    cases he : extract s with
    | none => simp
    | some wr =>
      obtain ⟨w, r⟩ := wr
      obtain ⟨_, _, hw, hr, hlt⟩ := extract_some he
      have hwa : ∀ c ∈ w.filter (fun c => !(ispunct c || isdigit c)), c < 128 :=
        fun c hc => hascii c (hw c (List.mem_of_mem_filter hc))
      simp only [mapM_tolower hwa, Option.bind_eq_bind, Option.some_bind]
      rw [ih r _ (by omega) (fun c hc => hascii c (hr c hc))]
      simp only [List.map_cons, List.filter_cons, normalize]
      split <;> simp

/-- A byte of a whitespace-free token that survives the stripping and is folded is
no whitespace, punctuation, digit or upper-case letter. -/
theorem normalize_chars {w : List Nat} (hw : ∀ c ∈ w, isspace c = false) :
    ∀ c ∈ normalize w, isspace c = false ∧ ispunct c = false ∧ isdigit c = false ∧
      isupper c = false := by
  intro c hc
  simp only [normalize, List.mem_map, List.mem_filter] at hc
  obtain ⟨d, ⟨hd, hkeep⟩, rfl⟩ := hc
  have hs := hw d hd
  simp only [isspace, ispunct, isdigit, isupper, Bool.or_eq_false_iff, Bool.and_eq_false_iff,
    Bool.not_eq_true', Bool.or_eq_true, Bool.and_eq_true, decide_eq_true_eq,
    decide_eq_false_iff_not, beq_eq_false_iff_ne, ne_eq, Bool.not_eq_eq_eq_not,
    Bool.not_true] at hs hkeep ⊢
  split <;> omega

end Tokenizer

namespace Tokenizer

theorem whitespaceTokens_nospace : ∀ (n : Nat) (s : List Nat), s.length < n →
    ∀ w ∈ whitespaceTokens s, ∀ c ∈ w, isspace c = false := by
  intro n
  induction n with
  | zero => intro s h; omega
  | succ n ih =>
    intro s hlen w hw
    rw [whitespaceTokens_eq] at hw
    cases he : extract s with
    | none => rw [he] at hw; cases hw
    | some wr =>
      obtain ⟨w0, r⟩ := wr
      rw [he] at hw
      obtain ⟨_, hns, _, _, hlt⟩ := extract_some he
      rcases List.mem_cons.1 hw with rfl | hw
      · exact hns
      · exact ih r (by omega) w hw

/-- C14. For every text made of ASCII bytes, tokenize returns; its words are the
whitespace-separated tokens of the text, each stripped of punctuation and digits and
folded to lower case, in the order of the tokens and without the ones left empty;
every word is non-empty and holds no whitespace, punctuation, digit or upper-case
byte. -/
theorem C14_tokenize_words (text : List Nat) (hascii : ∀ c ∈ text, c < 128) :
    ∃ ws, tokenize text = some ws ∧
      ws = ((whitespaceTokens text).map normalize).filter (fun w => !w.isEmpty) ∧
      ∀ w ∈ ws, w ≠ [] ∧ ∀ c ∈ w, isspace c = false ∧ ispunct c = false ∧
        isdigit c = false ∧ isupper c = false := by
  refine ⟨_, ?_, rfl, ?_⟩
  · have := tokenizeLoop_eq (text.length + 1) text [] (Nat.lt_succ_self _) hascii
    simpa [tokenize] using this
  · intro w hw
    simp only [List.mem_filter, List.mem_map] at hw
    obtain ⟨⟨t, ht, rfl⟩, hne⟩ := hw
    refine ⟨by simpa using hne, ?_⟩
    exact normalize_chars (whitespaceTokens_nospace _ text (Nat.lt_succ_self _) t ht)

/-- Witness for C14: the text of the unit test, "Hello, World! 123", gives the words
"hello" and "world"; the token "123" is dropped. -/
theorem C14_tokenize_words_witness :
    (∀ c ∈ "Hello, World! 123".toList.map Char.toNat, c < 128) ∧
    (∃ ws, tokenize ("Hello, World! 123".toList.map Char.toNat) = some ws ∧
      ws = ((whitespaceTokens ("Hello, World! 123".toList.map Char.toNat)).map
        normalize).filter (fun w => !w.isEmpty) ∧
      ∀ w ∈ ws, w ≠ [] ∧ ∀ c ∈ w, isspace c = false ∧ ispunct c = false ∧
        isdigit c = false ∧ isupper c = false) ∧
    tokenize ("Hello, World! 123".toList.map Char.toNat) =
      some ["hello".toList.map Char.toNat, "world".toList.map Char.toNat] :=
  ⟨by decide, C14_tokenize_words _ (by decide), by decide⟩

end Tokenizer

namespace PersistentRBTree
variable {α : Type}

theorem balanceAssign_steps (h : Heap α) (node : Option Nat) :
    balanceAssign h node = (balStep1 h node).bind fun s =>
      (balStep2 s.1 s.2).bind fun s => balStep3Assign s.1 s.2 := by
  unfold balanceAssign balStep1 balStep2 balStep3Assign
  cases deref h node with
  | none => rfl
  | some n =>
    simp only [Option.bind_eq_bind, Option.some_bind, Option.bind_assoc]

theorem flipColorsAssign_eq {h : Heap α} {a : Nat} {l r : VTree α} {x : α} {f : List Nat}
    (o : Owns h (some a) (VTree.node false l x r) f) (hf : f.Nodup)
    (hl : l.isRed = true) (hr : r.isRed = true) :
    flipColorsAssign h (some a) = flipColors h (some a) := by
  obtain ⟨a', n, fl, fr, ha, rfl, hn, hc, hx, ol, or⟩ := o.inv_node
  cases ha
  cases l with
  | nil => cases hl
  | node cl ll y lr =>
    cases r with
    | nil => cases hr
    | node cr rl z rr =>
      simp only [VTree.isRed_node] at hl hr
      subst hl; subst hr
      obtain ⟨la, nl, fll, flr, hla, rfl, hnl, hcl, _, _, _⟩ := ol.inv_node
      obtain ⟨ra, nr, frl, frr, hra, rfl, hnr, hcr, _, _, _⟩ := or.inv_node
      have hnd : a ≠ la ∧ a ≠ ra ∧ la ≠ ra := by
        have hc1 := List.nodup_cons.1 hf
        have hda := (List.nodup_append.1 hc1.2).2.2
        refine ⟨?_, ?_, ?_⟩
        · rintro rfl
          exact hc1.1 (List.mem_append_left _ (List.mem_cons_self _ _))
        · rintro rfl
          exact hc1.1 (List.mem_append_right _ (List.mem_cons_self _ _))
        · rintro rfl
          exact hda (List.mem_cons_self _ _) (List.mem_cons_self _ _)
      obtain ⟨h1, h2, h3⟩ := hnd
      have hlt : a < h.length := (List.getElem?_eq_some_iff.1 hn).1
      have hlt2 : la < h.length := (List.getElem?_eq_some_iff.1 hnl).1
      simp only [flipColorsAssign, flipColors, deref_some, hn, Option.bind_eq_bind,
        Option.some_bind, setIsRed_bind, hla, hra, Option.isSome_some, if_true,
        List.getElem?_set, List.length_set, hlt, hlt2, h1, h2, h3, h1.symm, h2.symm, h3.symm,
        if_false, hnl, hnr, hc, hcl, hcr, Bool.not_true, Bool.not_false]

end PersistentRBTree

namespace VTree
variable {α : Type}

theorem isRed_rotateLeft (t : VTree α) : t.rotateLeft.isRed = t.isRed := by
  cases t with
  | nil => rfl
  | node c l x r => cases r <;> rfl

theorem isRed_rotateRight (t : VTree α) : t.rotateRight.isRed = t.isRed := by
  cases t with
  | nil => rfl
  | node c l x r => cases l <;> rfl

theorem isRed_bal1 (t : VTree α) : t.bal1.isRed = t.isRed := by
  unfold bal1; split
  · exact isRed_rotateLeft t
  · rfl

theorem isRed_bal2 (t : VTree α) : t.bal2.isRed = t.isRed := by
  unfold bal2; split
  · exact isRed_rotateRight t
  · rfl

/-- A BLACK node is always safe to flip. -/
theorem flipSafe_black (l : VTree α) (x : α) (r : VTree α) : (node false l x r).FlipSafe := by
  intro _
  rw [isRed_bal2, isRed_bal1]; rfl

/-- Under a RED node with a well-shaped left subtree and a well-shaped BLACK right
subtree the third rule does not fire. -/
theorem flipSafe_red_left (x : α) {l r : VTree α} {cl : Bool} {n m : Nat}
    (hl : Bal l cl n) (hr : Bal r false m) : (node true l x r).FlipSafe := by
  intro h
  have e1 : (node true l x r).bal1 = node true l x r := by
    simp only [bal1, right_node, hr.colour, Bool.false_and, Bool.false_eq_true, if_false]
  have e2 : (node true l x r).bal2 = node true l x r := by
    simp only [bal2, left_node, hl.left_not_redRed, Bool.false_eq_true, if_false]
  rw [e1, e2] at h
  simp [hr.colour] at h

/-- Under a RED node with a well-shaped BLACK left subtree and a well-shaped right
subtree the third rule does not fire. -/
theorem flipSafe_red_right (x : α) {l r : VTree α} {cr : Bool} {n m : Nat}
    (hl : Bal l false n) (hr : Bal r cr m) : (node true l x r).FlipSafe := by
  intro h
  cases hr with
  | nil =>
    have e1 : (node true l x nil).bal1 = node true l x nil := rfl
    have e2 : (node true l x nil).bal2 = node true l x nil := by
      simp only [bal2, left_node, hl.left_not_redRed, Bool.false_eq_true, if_false]
    rw [e1, e2] at h
    simp at h
  | @black rl rr y c2 k a b =>
    have e1 : (node true l x (node false rl y rr)).bal1 = node true l x (node false rl y rr) := by
      simp only [bal1, right_node, isRed_node, Bool.false_and, Bool.false_eq_true, if_false]
    have e2 : (node true l x (node false rl y rr)).bal2 = node true l x (node false rl y rr) := by
      simp only [bal2, left_node, hl.left_not_redRed, Bool.false_eq_true, if_false]
    rw [e1, e2] at h
    simp at h
  | @red rl rr y k a b =>
    have e1 : (node true l x (node true rl y rr)).bal1 = node true (node true l x rl) y rr := by
      simp only [bal1, right_node, left_node, isRed_node, hl.colour, Bool.not_false,
        Bool.and_self, if_true, rotateLeft]
    have e2 : (node true (node true l x rl) y rr).bal2 = node true (node true l x rl) y rr := by
      simp only [bal2, left_node, isRed_node, hl.colour, Bool.and_false, Bool.false_eq_true,
        if_false]
    rw [e1, e2] at h
    simp [b.colour] at h

end VTree

namespace PersistentRBTree
variable {α : Type}

theorem balStep3Assign_eq {h : Heap α} {a : Nat} {c : Bool} {l r : VTree α} {x : α}
    {f : List Nat} (o : Owns h (some a) (VTree.node c l x r) f) (hf : f.Nodup)
    (hs : (l.isRed && r.isRed) = true → c = false) :
    balStep3Assign h (some a) = balStep3 h (some a) := by
  obtain ⟨a', n, fl, fr, ha, e, hn, hc, hx, ol, or⟩ := o.inv_node
  cases ha
  simp only [balStep3Assign, balStep3, deref_some, hn, Option.some_bind, ol.isRed_eq,
    or.isRed_eq]
  by_cases hcond : (l.isRed && r.isRed) = true
  · have hc' := hs hcond
    subst hc'
    have hl : l.isRed = true := by simp at hcond; exact hcond.1
    have hr : r.isRed = true := by simp at hcond; exact hcond.2
    simp only [hcond, if_true, flipColorsAssign_eq o hf hl hr]
  · simp only [hcond, if_false, Bool.false_eq_true]

theorem balanceAssign_eq {h : Heap α} {p : Option Nat} {t : VTree α} {f : List Nat}
    (o : Owns h p t f) (hf : f.Nodup) (ht : t.IsNode) (hs : t.FlipSafe) :
    balanceAssign h p = balance h p := by
  obtain ⟨a, c, l, x, r, rfl, rfl⟩ := o.some_of_isNode ht
  rw [balanceAssign_steps, balance_steps]
  obtain ⟨H1, q1, e1, ⟨f1, o1, n1, _⟩, _, _⟩ := balStep1_spec o hf
  rw [e1]
  simp only [Option.some_bind]
  obtain ⟨a1, c1, l1, x1, r1, rfl, et1⟩ := o1.some_of_isNode (VTree.isNode_bal1 trivial)
  unfold VTree.FlipSafe at hs
  rw [et1] at o1 hs
  obtain ⟨H2, q2, e2, ⟨f2, o2, n2, _⟩, _, _⟩ := balStep2_spec o1 n1
  rw [e2]
  simp only [Option.some_bind]
  obtain ⟨a2, c2, l2, x2, r2, rfl, et2⟩ := o2.some_of_isNode (VTree.isNode_bal2 trivial)
  rw [et2] at o2 hs
  exact balStep3Assign_eq o2 n2 hs

theorem link_left_all {h H2 : Heap α} {a : Nat} {n : Node α} {l l' r : VTree α}
    {fl fr : List Nat} {q2 : Option Nat}
    (hn : h[a]? = some n) (ol : Owns h n.left l fl) (or : Owns h n.right r fr)
    (hf : (a :: (fl ++ fr)).Nodup) (r2 : Reach (h ++ [n]) fl H2 q2 l') (hl' : l'.IsNode) :
    ∃ H4, (∀ K : Heap α → Option (Heap α × Option Nat),
        ((setLeft H2 (some h.length) q2).bind fun h3 =>
          (deref h3 (some h.length)).bind fun nn =>
          (setParent h3 nn.left (some h.length)).bind K) = K H4) ∧
      Reach h (a :: (fl ++ fr)) H4 (some h.length) (VTree.node n.isRed l' n.data r) := by
  obtain ⟨H4, e4, r4⟩ := link_left hn ol or hf r2 hl' (fun h4 => some h4)
  refine ⟨H4, fun K => ?_, r4⟩
  have := congrArg (fun o => o.bind K) e4
  simpa only [Option.bind_assoc, Option.some_bind] using this

theorem link_right_all {h H2 : Heap α} {a : Nat} {n : Node α} {l r r' : VTree α}
    {fl fr : List Nat} {q2 : Option Nat}
    (hn : h[a]? = some n) (ol : Owns h n.left l fl) (or : Owns h n.right r fr)
    (hf : (a :: (fl ++ fr)).Nodup) (r2 : Reach (h ++ [n]) fr H2 q2 r') (hl' : r'.IsNode) :
    ∃ H4, (∀ K : Heap α → Option (Heap α × Option Nat),
        ((setRight H2 (some h.length) q2).bind fun h3 =>
          (deref h3 (some h.length)).bind fun nn =>
          (setParent h3 nn.right (some h.length)).bind K) = K H4) ∧
      Reach h (a :: (fl ++ fr)) H4 (some h.length) (VTree.node n.isRed l n.data r') := by
  obtain ⟨H4, e4, r4⟩ := link_right hn ol or hf r2 hl' (fun h4 => some h4)
  refine ⟨H4, fun K => ?_, r4⟩
  have := congrArg (fun o => o.bind K) e4
  simpa only [Option.bind_assoc, Option.some_bind] using this

end PersistentRBTree

namespace VTree
variable {α : Type}

theorem Bal.children {c c' : Bool} {l r : VTree α} {x : α} {n : Nat}
    (b : Bal (node c l x r) c' n) : ∃ cl m, Bal l cl m ∧ Bal r false m := by
  cases b with
  | red hl hr => exact ⟨_, _, hl, hr⟩
  | black hl hr => exact ⟨_, _, hl, hr⟩

end VTree

namespace VTree
variable {α : Type} [LinearOrder α]

theorem flipSafe_insert_left (k : α) {c c' : Bool} {l r : VTree α} {x : α} {n : Nat}
    (b : Bal (node c l x r) c' n) : (node c (l.insert k) x r).FlipSafe := by
  cases b with
  | red hl hr =>
    obtain ⟨c2, hl'⟩ := (hl.insert_shape k).1 rfl
    exact flipSafe_red_left x hl' hr
  | black hl hr => exact flipSafe_black _ _ _

theorem flipSafe_insert_right (k : α) {c c' : Bool} {l r : VTree α} {x : α} {n : Nat}
    (b : Bal (node c l x r) c' n) : (node c l x (r.insert k)).FlipSafe := by
  cases b with
  | red hl hr =>
    obtain ⟨c2, hr'⟩ := (hr.insert_shape k).1 rfl
    exact flipSafe_red_right x hl hr'
  | black hl hr => exact flipSafe_black _ _ _

end VTree

namespace PersistentRBTree
variable {α : Type} [LinearOrder α]

theorem insertAssign_left_eq {fuel : Nat} {h : Heap α} {a : Nat} {n : Node α} {value : α}
    (hn : h[a]? = some n) (hlt : value < n.data) :
    insertAssign (fuel + 1) h (some a) value =
      (insertAssign fuel (h ++ [n]) n.left value).bind fun s =>
      (setLeft s.1 (some h.length) s.2).bind fun h3 =>
      (deref h3 (some h.length)).bind fun nn =>
      (setParent h3 nn.left (some h.length)).bind fun h4 =>
        balanceAssign h4 (some h.length) := by
  have ha : a < h.length := (List.getElem?_eq_some_iff.1 hn).1
  simp only [insertAssign, deref_some, hn, Option.bind_eq_bind, Option.some_bind, hlt, if_true,
    alloc, getElem?_push_lt _ ha]

theorem insertAssign_right_eq {fuel : Nat} {h : Heap α} {a : Nat} {n : Node α} {value : α}
    (hn : h[a]? = some n) (hlt : ¬ value < n.data) (hgt : value > n.data) :
    insertAssign (fuel + 1) h (some a) value =
      (insertAssign fuel (h ++ [n]) n.right value).bind fun s =>
      (setRight s.1 (some h.length) s.2).bind fun h3 =>
      (deref h3 (some h.length)).bind fun nn =>
      (setParent h3 nn.right (some h.length)).bind fun h4 =>
        balanceAssign h4 (some h.length) := by
  have ha : a < h.length := (List.getElem?_eq_some_iff.1 hn).1
  simp only [insertAssign, deref_some, hn, Option.bind_eq_bind, Option.some_bind, hlt, hgt,
    if_true, if_false, alloc, getElem?_push_lt _ ha]

theorem insertAssign_dup_eq {fuel : Nat} {h : Heap α} {a : Nat} {n : Node α} {value : α}
    (hn : h[a]? = some n) (hlt : ¬ value < n.data) (hgt : ¬ value > n.data) :
    insertAssign (fuel + 1) h (some a) value = some (h, some a) := by
  simp only [insertAssign, deref_some, hn, Option.bind_eq_bind, Option.some_bind, hlt, hgt,
    if_false]

/-- On a well-shaped tree the store-level insert with the assigning flip performs
the same writes as the insert of the source. -/
theorem insertAssign_eq (value : α) : ∀ (t : VTree α) (c : Bool) (m : Nat), VTree.Bal t c m →
    ∀ (fuel : Nat) (h : Heap α) (p : Option Nat) (f : List Nat), Owns h p t f → f.Nodup →
    t.height < fuel → insertAssign fuel h p value = insert fuel h p value := by
  intro t
  induction t with
  | nil =>
    intro c m _ fuel h p f o hf hfuel
    obtain ⟨rfl, rfl⟩ := o.inv_nil
    obtain ⟨fuel, rfl⟩ : ∃ k, fuel = k + 1 := ⟨fuel - 1, by simp [VTree.height] at hfuel; omega⟩
    rfl
  | node c0 l x r ihl ihr =>
    intro c m b fuel h p f o hf hfuel
    obtain ⟨cl, ml, bl, br⟩ := b.children
    obtain ⟨a, n, fl, fr, rfl, rfl, hn, hc, hx, ol, or⟩ := o.inv_node
    obtain ⟨fuel, rfl⟩ : ∃ k, fuel = k + 1 := ⟨fuel - 1, by simp [VTree.height] at hfuel; omega⟩
    have hhl : l.height < fuel := by simp [VTree.height] at hfuel; omega
    have hhr : r.height < fuel := by simp [VTree.height] at hfuel; omega
    have hnd := List.nodup_cons.1 hf
    subst hc; subst hx
    by_cases hlt : value < n.data
    · have hfl := (List.nodup_append.1 hnd.2).1
      obtain ⟨H2, q2, e2, r2⟩ := insert_spec value l fuel (h ++ [n]) n.left fl (ol.alloc n) hfl hhl
      obtain ⟨H4, e4, ⟨f4, o4, n4, _⟩, _, _⟩ :=
        link_left_all hn ol or hf r2 (VTree.isNode_insert l value)
      rw [insertAssign_left_eq hn hlt, insert_left_eq hn hlt,
        ihl cl ml bl fuel (h ++ [n]) n.left fl (ol.alloc n) hfl hhl, e2]
      simp only [Option.some_bind]
      rw [e4, e4]
      exact balanceAssign_eq o4 n4 trivial (VTree.flipSafe_insert_left value b)
    · by_cases hgt : value > n.data
      · have hfr := (List.nodup_append.1 hnd.2).2.1
        obtain ⟨H2, q2, e2, r2⟩ :=
          insert_spec value r fuel (h ++ [n]) n.right fr (or.alloc n) hfr hhr
        obtain ⟨H4, e4, ⟨f4, o4, n4, _⟩, _, _⟩ :=
          link_right_all hn ol or hf r2 (VTree.isNode_insert r value)
        rw [insertAssign_right_eq hn hlt hgt, insert_right_eq hn hlt hgt,
          ihr false ml br fuel (h ++ [n]) n.right fr (or.alloc n) hfr hhr, e2]
        simp only [Option.some_bind]
        rw [e4, e4]
        exact balanceAssign_eq o4 n4 trivial (VTree.flipSafe_insert_right value b)
      · rw [insertAssign_dup_eq hn hlt hgt, insert_dup_eq hn hlt hgt]

/-- C18. For every version built by the driver loop from any key list and every key
k, add with the colour flip replaced by "node becomes RED, both children become
BLACK" returns exactly what add returns, heap and version: wherever the flip is
applied during add the node is BLACK and both its children are RED. -/
theorem C18_flip_inverts_black_over_red (keys : List α) (k : α) :
    ∃ H v H' v', build keys = some (H, v) ∧ add H v k = some (H', v') ∧
      addAssign H v k = some (H', v') := by
  obtain ⟨H, v, t, f, e, o, hf, _, _, ⟨n, hb⟩, _⟩ := build_tree keys
  obtain ⟨H', v', e', _⟩ := add_spec o hf k
  refine ⟨H, v, H', v', e, e', ?_⟩
  rw [← e']
  unfold addAssign add
  rw [insertAssign_eq k t false n hb (H.length + 1) H v.root f o hf (o.height_lt hf)]

end PersistentRBTree
